import Mathlib

/-!
# Content-defined chunking with a rolling fingerprint (hdonnay/rabin)

A shallow embedding of `table.go` and `chunk.go`.

* Go's `uint64` arithmetic on `hash` is modelled on `Nat` with explicit
  reduction modulo `2^64` after every operation.
* The `int64` offsets `pos` and `off` are modelled as `Nat`: they start at zero
  and only grow by amounts bounded by file sizes, far below `2^63`.
* A Go `error` value is `Option Error`, `none` being `nil`.
* `*os.File` is modelled by the three operations the package calls on it
  (`Stat`, `ReadAt`, `Seek(0, io.SeekStart)`); `File.ofBytes` is the file backed
  by a finite byte sequence.
* The unbounded `for` loop of `findBoundary` takes a fuel argument; `none`
  means the fuel ran out before the loop returned.
-/

namespace Rabin

/-! ## table.go -/

/-- A byte, the element type of Go's `[]byte`. -/
abbrev Byte := Fin 256

/-- The Adler32 prime. -/
def Prime : Nat := 65521

/-- Window size. -/
def Window : Nat := 16

/-- Bit width of the modulus. -/
def Shift : Nat := 31

/-- Left-shift amount of the boundary test. -/
def Mask : Nat := 64 - 13

/-- The bit mask `(1 << Shift) - 1`. -/
def mod : Nat := (1 <<< Shift) - 1

/-- Length of the read buffer. -/
def bufSz : Nat := 8192

/-- Minimum jump, `4 << 20`. -/
def MinSz : Nat := 4 <<< 20

/-- Scan cutoff, `5 << 20`. -/
def MaxSz : Nat := 5 <<< 20

/-- Reduction of a natural number to a `uint64` value. -/
def u64 (n : Nat) : Nat := n % 2 ^ 64

/-- Entry `i` of the table filled by `init`:
`n.Mul(n, Exp(bigPrime, bigWindow, bigMod)).Uint64()` with `n = i` and
`bigMod = 1 << Shift`. -/
def popTable (i : Byte) : Nat := u64 (i.val * (Prime ^ Window % (1 <<< Shift)))

/-! ## chunk.go -/

/-- Go error values met by the package: `io.EOF`, the package's private
sentinel `fpDone`, and any other error, identified by a number. -/
inductive Error where
  | EOF : Error
  | fpDone : Error
  | other : Nat → Error
  deriving DecidableEq, Repr

/-- The operations of `*os.File` used by the package. `ReadAt len off` is
`ReadAt(b, off)` with `len(b) = len`: the bytes stored into the front of `b`
and the error. `Seek` is the error of `Seek(0, io.SeekStart)`. `Stat` is
`fi.Size()` or the error of `Stat()`. -/
structure File where
  Stat : Except Error Nat
  ReadAt : Nat → Nat → List Byte × Option Error
  Seek : Option Error

/-- The file backed by a finite byte sequence: a positioned read returns the
available bytes and reports `io.EOF` when fewer than `len` are available. -/
def File.ofBytes (data : List Byte) : File where
  Stat := .ok data.length
  ReadAt := fun len off =>
    let bs := (data.drop off).take len
    (bs, if bs.length < len then some Error.EOF else none)
  Seek := none

/-- The `Chunker` struct. -/
structure Chunker where
  hash : Nat
  pos : Nat
  off : Nat
  buf : List Byte
  single : Bool
  rd : File

/-- The constructor `New`. -/
def New (f : File) : Except Error Chunker :=
  match f.Stat with
  | .error e => .error e
  | .ok size =>
    if size < MinSz then
      -- `buf` is left at its zero value, the nil slice
      .ok { hash := 0, pos := 0, off := 0, buf := [], single := true, rd := f }
    else
      .ok { hash := 0, pos := 0, off := 0, buf := List.replicate bufSz 0,
            single := false, rd := f }

/-- The `uint64` update of `hash` for incoming byte `b` and outgoing byte `o`:
`hash *= Prime; hash += b; hash -= popTable[o]; hash &= mod`. -/
def update (hash : Nat) (b o : Byte) : Nat :=
  let h1 := u64 (hash * Prime)
  let h2 := u64 (h1 + b.val)
  let h3 := u64 (h2 + 2 ^ 64 - popTable o)
  h3 &&& mod

/-- The stop test `c.hash<<Mask == 0 || c.off > MaxSz`. -/
def stop (hash off : Nat) : Bool :=
  u64 (hash <<< Mask) == 0 || decide (off > MaxSz)

/-- State of the inner loop when it is left: `done` records the `break`. -/
structure Scan where
  hash : Nat
  off : Nat
  ls : List Byte
  done : Bool
  deriving DecidableEq, Repr

/-- The inner loop `for i := 0; i < n; i++` over the `n` bytes just read. -/
def scanBlock : Nat → Nat → List Byte → List Byte → Scan
  | hash, off, ls, [] => ⟨hash, off, ls, false⟩
  | hash, off, ls, b :: bs =>
    let j := off &&& (Window - 1)
    let hash1 := update hash b (ls.getD j 0)
    let ls1 := ls.set j b
    let off1 := off + 1
    if stop hash1 off1 then ⟨hash1, off1, ls1, true⟩
    else scanBlock hash1 off1 ls1 bs

/-- The outer loop of `findBoundary`: one `ReadAt` per iteration, the inner
loop, `c.pos += c.off`, then the `switch err`. -/
def findLoop (start : Nat) : Nat → Chunker → List Byte →
    Option (Chunker × (Nat × Nat × Option Error))
  | 0, _, _ => none
  | fuel + 1, c, ls =>
    let r := c.rd.ReadAt c.buf.length c.pos
    let s := scanBlock c.hash c.off ls r.1
    let err := if s.done then some Error.fpDone else r.2
    let c1 : Chunker :=
      { c with buf := r.1 ++ c.buf.drop r.1.length, hash := s.hash, off := s.off,
               pos := c.pos + s.off }
    match err with
    | none => findLoop start fuel c1 s.ls
    | some Error.fpDone => some (c1, (start, c1.pos, none))
    | some e => some (c1, (0, 0, some e))

/-- The method `findBoundary`. -/
def findBoundary (fuel : Nat) (c : Chunker) :
    Option (Chunker × (Nat × Nat × Option Error)) :=
  findLoop c.pos fuel { c with off := 0, pos := c.pos + MinSz } (List.replicate Window 0)

/-- What `Next` hands out: the file itself, or
`io.NewSectionReader(r, off, n)`. -/
inductive View where
  | file : File → View
  | sectionReader : File → Nat → Nat → View

/-- The bytes readable from a view. A section reader created by
`io.NewSectionReader(r, off, n)` reads `n` bytes of `r` starting at `off`,
stopping early at the end of `r`; the file, seeked to its start, reads from
offset zero to its end. -/
def View.bytes : View → List Byte
  | .file rd =>
    match rd.Stat with
    | .ok size => (rd.ReadAt size 0).1
    | .error _ => []
  | .sectionReader rd off n => (rd.ReadAt n off).1

/-- The method `Next`. -/
def Next (fuel : Nat) (c : Chunker) : Option (Chunker × (Option View × Option Error)) :=
  if c.single then
    match c.rd.Seek with
    | some e => some (c, (none, some e))
    | none => some (c, (some (View.file c.rd), none))
  else
    match findBoundary fuel c with
    | none => none
    | some (c1, (_, _, some e)) => some (c1, (none, some e))
    | some (c1, (a, b, none)) => some (c1, (some (View.sectionReader c1.rd a b), none))

/-- The method `Reset`; `none` is the `nil` argument. -/
def Reset (c : Chunker) (rd : Option File) : Chunker × Option Error :=
  let rd1 := rd.getD c.rd
  match rd1.Seek with
  | some e => (c, some e)
  | none => ({ c with hash := 0, pos := 0, off := 0, rd := rd1 }, none)

/-- The caller's loop `for s, err := c.Next(); err == nil; s, err = c.Next()`
of the tests: the views handed out before the first error, that error, and the
final state. At most `calls` calls of `Next` are made; `none` means the loop
had not ended by then. `Next` never returns a nil view with a nil error, so the
third case, which ends the loop with a placeholder, is never taken. -/
def pass (fuel : Nat) : Nat → Chunker → Option (List View × Error × Chunker)
  | 0, _ => none
  | calls + 1, c =>
    match Next fuel c with
    | none => none
    | some (c1, (_, some e)) => some ([], e, c1)
    | some (c1, (none, none)) => some ([], Error.other 0, c1)
    | some (c1, (some v, none)) =>
      match pass fuel calls c1 with
      | none => none
      | some (vs, e, c2) => some (v :: vs, e, c2)

/-- Concatenation, in order, of the bytes readable from each view. -/
def reassemble (vs : List View) : List Byte :=
  (vs.map View.bytes).flatten

/-- Two states that agree on everything but the contents of the read buffer,
whose length they share. -/
def SameButBuf (c d : Chunker) : Prop :=
  c.hash = d.hash ∧ c.pos = d.pos ∧ c.off = d.off ∧ c.buf.length = d.buf.length ∧
    c.single = d.single ∧ c.rd = d.rd

/-- Two states that agree on everything but the file and the contents of the
read buffer. -/
def SameButFile (c d : Chunker) : Prop :=
  c.hash = d.hash ∧ c.pos = d.pos ∧ c.off = d.off ∧ c.buf.length = d.buf.length ∧
    c.single = d.single

/-- The ranges `(start, end)` returned by the first `k` calls of `findBoundary`,
when all of them succeed. -/
def ranges (fuel : Nat) : Nat → Chunker → Option (List (Nat × Nat))
  | 0, _ => some []
  | k + 1, c =>
    match findBoundary fuel c with
    | none => none
    | some (_, (_, _, some _)) => none
    | some (c1, (a, b, none)) =>
      match ranges fuel k c1 with
      | none => none
      | some rs => some ((a, b) :: rs)

/-- The states a caller can reach: the result of `New`, followed by any
sequence of `Next` and `Reset` calls. -/
inductive Reachable : Chunker → Prop where
  | new (f : File) (c : Chunker) : New f = .ok c → Reachable c
  | next (fuel : Nat) (c c1 : Chunker) (res : Option View × Option Error) :
      Reachable c → Next fuel c = some (c1, res) → Reachable c1
  | reset (c : Chunker) (rd : Option File) : Reachable c → Reachable (Reset c rd).1

/-- The direct window fingerprint in the spec's words: with `fed` the `n` bytes
fed so far in a search entered with hash `h0`, oldest first,
`(h0 * Prime^n + sum over k < min n Window of b_(n-k) * Prime^k) mod 2^Shift`. -/
def fingerprint (h0 : Nat) (fed : List Byte) : Nat :=
  (h0 * Prime ^ fed.length +
    ∑ k in Finset.range (min fed.length Window),
      (fed.reverse.getD k 0).val * Prime ^ k) % 2 ^ Shift

/-- The polynomial `sum over k < n of r_k * Prime^k` of the first `n` entries of
`rev`, the bytes fed so far, newest first (Horner form). -/
def poly : Nat → List Byte → Nat
  | 0, _ => 0
  | _ + 1, [] => 0
  | n + 1, b :: rev => b.val + Prime * poly n rev

/-- The value of `hash` once the bytes `rev` (newest first) have been fed in a
search entered with hash `h0`. -/
def hashAfter (h0 : Nat) (rev : List Byte) : Nat :=
  (h0 * Prime ^ rev.length + poly Window rev) % 2 ^ Shift

/-- The ring buffer `ls` holds the last `Window` bytes of `rev` (newest first):
the byte fed `k` steps ago sits in slot `(length - 1 - k) mod Window`, and slots
never written hold zero. -/
def WindowOf (ls rev : List Byte) : Prop :=
  ls.length = Window ∧
    ∀ k, k < Window → ls.getD ((rev.length + (Window - 1) - k) % Window) 0 = rev.getD k 0

/-- Go's `io.ReaderAt` contract, as far as the scanner relies on it: a read
stores at most `len` bytes, and fewer than `len` only together with a non-nil
error. -/
def File.Full (f : File) : Prop :=
  ∀ len off, (f.ReadAt len off).1.length ≤ len ∧
    ((f.ReadAt len off).2 = none → (f.ReadAt len off).1.length = len)

/-! ## Concrete files and states used as test inputs -/

/-- A file of `MinSz` bytes whose every positioned read stores one zero byte
and fails with an error that is not `io.EOF`. -/
def faultyFile : File where
  Stat := .ok MinSz
  ReadAt := fun _ _ => ([0], some (Error.other 1))
  Seek := none

/-- The file of `n` zero bytes. -/
def zeroFile (n : Nat) : File := File.ofBytes (List.replicate n 0)

/-- The state `New` builds for a file of at least `MinSz` bytes. -/
def fresh (f : File) : Chunker :=
  { hash := 0, pos := 0, off := 0, buf := List.replicate bufSz 0, single := false, rd := f }

/-- The file of `MinSz` zero bytes, then `k` bytes of value one, then `z` zero
bytes. -/
def onesFile (k z : Nat) : File :=
  File.ofBytes (List.replicate MinSz 0 ++ (List.replicate k 1 ++ List.replicate z 0))

/-- The value `hash` settles on while the window holds sixteen bytes of value
one. -/
def onesHash : Nat := 2056808592

/-- Values of `pos` and `off` after `m` further iterations of the outer loop
that each read a full block and meet no stop: an iteration adds `bufSz` to
`off`, then all of `off` to `pos`. -/
def jump : Nat → Nat → Nat → Nat × Nat
  | 0, pos, off => (pos, off)
  | m + 1, pos, off => jump m (pos + (off + bufSz)) (off + bufSz)

/-- The state `New` builds for a file of fewer than `MinSz` bytes. -/
def freshSingle (f : File) : Chunker :=
  { hash := 0, pos := 0, off := 0, buf := [], single := true, rd := f }

end Rabin

namespace Rabin

/-! ## The inner loop -/

theorem scanBlock_cons_stop {hash off : Nat} {ls : List Byte} {b : Byte} (bs : List Byte)
    (h : stop (update hash b (ls.getD (off &&& (Window - 1)) 0)) (off + 1) = true) :
    scanBlock hash off ls (b :: bs) =
      ⟨update hash b (ls.getD (off &&& (Window - 1)) 0), off + 1,
        ls.set (off &&& (Window - 1)) b, true⟩ := by
  rw [scanBlock]
  simp only [h, if_true]

theorem scanBlock_cons_go {hash off : Nat} {ls : List Byte} {b : Byte} (bs : List Byte)
    (h : stop (update hash b (ls.getD (off &&& (Window - 1)) 0)) (off + 1) = false) :
    scanBlock hash off ls (b :: bs) =
      scanBlock (update hash b (ls.getD (off &&& (Window - 1)) 0)) (off + 1)
        (ls.set (off &&& (Window - 1)) b) bs := by
  rw [scanBlock]
  simp only [h, Bool.false_eq_true, if_false]

theorem scanBlock_off_ge (bs : List Byte) : ∀ (hash off : Nat) (ls : List Byte),
    off ≤ (scanBlock hash off ls bs).off := by
  induction bs with
  | nil => intro hash off ls; simp [scanBlock]
  | cons b bs ih =>
    intro hash off ls
    cases hs : stop (update hash b (ls.getD (off &&& (Window - 1)) 0)) (off + 1)
    · rw [scanBlock_cons_go bs hs]
      exact Nat.le_trans (Nat.le_succ off) (ih _ _ _)
    · rw [scanBlock_cons_stop bs hs]
      exact Nat.le_succ off

theorem scanBlock_not_done (bs : List Byte) : ∀ (hash off : Nat) (ls : List Byte),
    (scanBlock hash off ls bs).done = false →
      (scanBlock hash off ls bs).off = off + bs.length := by
  induction bs with
  | nil => intro hash off ls _; simp [scanBlock]
  | cons b bs ih =>
    intro hash off ls h
    cases hs : stop (update hash b (ls.getD (off &&& (Window - 1)) 0)) (off + 1)
    · rw [scanBlock_cons_go bs hs] at h ⊢
      rw [ih _ _ _ h, List.length_cons]
      omega
    · rw [scanBlock_cons_stop bs hs] at h
      simp at h

theorem scanBlock_off_le (bs : List Byte) : ∀ (hash off : Nat) (ls : List Byte),
    off ≤ MaxSz → (scanBlock hash off ls bs).off ≤ MaxSz + 1 ∧
      ((scanBlock hash off ls bs).done = false → (scanBlock hash off ls bs).off ≤ MaxSz) := by
  induction bs with
  | nil => intro hash off ls h; simp only [scanBlock]; exact ⟨by omega, fun _ => h⟩
  | cons b bs ih =>
    intro hash off ls h
    cases hs : stop (update hash b (ls.getD (off &&& (Window - 1)) 0)) (off + 1)
    · rw [scanBlock_cons_go bs hs]
      have h1 : off + 1 ≤ MaxSz := by
        simp only [stop, Bool.or_eq_false_iff, decide_eq_false_iff_not, not_lt, gt_iff_lt] at hs
        exact hs.2
      exact ih _ _ _ h1
    · rw [scanBlock_cons_stop bs hs]
      exact ⟨by simpa using h, by simp⟩

/-! ## The outer loop, for any file -/

theorem findLoop_ok {start : Nat} : ∀ (fuel : Nat) (c : Chunker) (ls : List Byte)
    (c1 : Chunker) (s e : Nat),
    findLoop start fuel c ls = some (c1, (s, e, none)) →
      s = start ∧ e = c1.pos ∧ c.pos ≤ c1.pos := by
  intro fuel
  induction fuel with
  | zero => intro c ls c1 s e h; simp [findLoop] at h
  | succ n ih =>
    intro c ls c1 s e h
    rw [findLoop] at h
    simp only at h
    split at h
    · obtain ⟨h1, h2, h3⟩ := ih _ _ _ _ _ h
      simp only at h3
      exact ⟨h1, h2, by omega⟩
    · simp only [Option.some.injEq, Prod.mk.injEq] at h
      obtain ⟨rfl, rfl, rfl, -⟩ := h
      simp
    · simp at h

theorem findLoop_fields {start : Nat} : ∀ (fuel : Nat) (c : Chunker) (ls : List Byte)
    (c1 : Chunker) (r : Nat × Nat × Option Error),
    findLoop start fuel c ls = some (c1, r) → c1.rd = c.rd ∧ c1.single = c.single := by
  intro fuel
  induction fuel with
  | zero => intro c ls c1 r h; simp [findLoop] at h
  | succ n ih =>
    intro c ls c1 r h
    rw [findLoop] at h
    simp only at h
    split at h
    · have h1 := ih _ _ _ _ h
      simpa using h1
    · simp only [Option.some.injEq, Prod.mk.injEq] at h
      obtain ⟨rfl, -⟩ := h
      simp
    · simp only [Option.some.injEq, Prod.mk.injEq] at h
      obtain ⟨rfl, -⟩ := h
      simp

theorem findLoop_fuel_mono {start : Nat} : ∀ (fuel : Nat) (c : Chunker) (ls : List Byte)
    (r : Chunker × (Nat × Nat × Option Error)) (k : Nat),
    findLoop start fuel c ls = some r → findLoop start (fuel + k) c ls = some r := by
  intro fuel
  induction fuel with
  | zero => intro c ls r k h; simp [findLoop] at h
  | succ n ih =>
    intro c ls r k h
    rw [show n + 1 + k = (n + k) + 1 by omega, findLoop]
    rw [findLoop] at h
    simp only at h ⊢
    split at h
    · exact ih _ _ _ k h
    · exact h
    · exact h

end Rabin

namespace Rabin

/-! ## Files backed by a byte sequence -/

theorem ofBytes_ReadAt (data : List Byte) (len off : Nat) :
    (File.ofBytes data).ReadAt len off =
      ((data.drop off).take len,
        if ((data.drop off).take len).length < len then some Error.EOF else none) := rfl

theorem stop_zero : stop (update 0 0 ((List.replicate Window 0).getD (0 &&& (Window - 1)) 0))
    (0 + 1) = true := by decide

/-- On a file of zero bytes, a search entered with `hash = 0` strictly before
the end stops at the first byte it reads. -/
theorem findBoundary_zeros (n fuel : Nat) (c : Chunker)
    (hrd : c.rd = File.ofBytes (List.replicate n 0)) (hh : c.hash = 0)
    (hb : c.buf = List.replicate bufSz 0) (hp : c.pos + MinSz < n) :
    findBoundary (fuel + 1) c =
      some ({ c with hash := 0, pos := c.pos + MinSz + 1, off := 1 },
        (c.pos, c.pos + MinSz + 1, none)) := by
  obtain ⟨m, hm⟩ : ∃ m, n - (c.pos + MinSz) = m + 1 := ⟨n - (c.pos + MinSz) - 1, by omega⟩
  obtain ⟨k, hk⟩ : ∃ k, min bufSz (m + 1) = k + 1 := ⟨min bufSz (m + 1) - 1, by
    simp only [bufSz]; omega⟩
  have hread : (List.take bufSz (List.drop (c.pos + MinSz) (List.replicate n (0 : Byte)))) =
      0 :: List.replicate k 0 := by
    rw [List.drop_replicate, List.take_replicate, hm, hk, List.replicate_succ]
  have hbuf : (0 : Byte) :: List.replicate k 0 ++
      List.drop (0 :: List.replicate k (0 : Byte)).length (List.replicate bufSz 0) =
      List.replicate bufSz 0 := by
    have hlen : k + 1 + (bufSz - (k + 1)) = bufSz := by
      simp only [bufSz] at hk ⊢; omega
    rw [← List.replicate_succ, List.length_replicate, List.drop_replicate,
      List.append_replicate_replicate, hlen]
  have hupd : update 0 0 ((List.replicate Window 0).getD (0 &&& (Window - 1)) 0) = 0 := by
    decide
  simp only [findBoundary, findLoop, hrd, hh, hb, List.length_replicate, ofBytes_ReadAt,
    hread, scanBlock_cons_stop _ stop_zero, if_true, hbuf, hupd]

/-- On any byte-sequence file, a search whose minimum jump reaches or passes
the end reads nothing and fails with `io.EOF`. -/
theorem findBoundary_eof (data : List Byte) (fuel : Nat) (c : Chunker)
    (hrd : c.rd = File.ofBytes data) (hb : c.buf.length = bufSz)
    (hp : data.length ≤ c.pos + MinSz) :
    findBoundary (fuel + 1) c =
      some ({ c with off := 0, pos := c.pos + MinSz }, (0, 0, some Error.EOF)) := by
  have hread : List.take bufSz (List.drop (c.pos + MinSz) data) = [] := by
    rw [List.drop_eq_nil_of_le hp]; rfl
  simp only [findBoundary, findLoop, hrd, hb, ofBytes_ReadAt, hread, scanBlock]
  simp [bufSz]

end Rabin

namespace Rabin

/-! ## `Next` on byte-sequence files -/

theorem Next_zeros (n fuel : Nat) (c : Chunker)
    (hrd : c.rd = File.ofBytes (List.replicate n 0)) (hs : c.single = false) (hh : c.hash = 0)
    (hb : c.buf = List.replicate bufSz 0) (hp : c.pos + MinSz < n) :
    Next (fuel + 1) c =
      some ({ c with hash := 0, pos := c.pos + MinSz + 1, off := 1 },
        (some (View.sectionReader c.rd c.pos (c.pos + MinSz + 1)), none)) := by
  simp only [Next, hs, findBoundary_zeros n fuel c hrd hh hb hp]
  rfl

theorem Next_eof (data : List Byte) (fuel : Nat) (c : Chunker)
    (hrd : c.rd = File.ofBytes data) (hs : c.single = false) (hb : c.buf.length = bufSz)
    (hp : data.length ≤ c.pos + MinSz) :
    Next (fuel + 1) c =
      some ({ c with off := 0, pos := c.pos + MinSz }, (none, some Error.EOF)) := by
  simp only [Next, hs, findBoundary_eof data fuel c hrd hb hp]
  rfl

theorem New_zeroFile (n : Nat) (h : MinSz ≤ n) : New (zeroFile n) = .ok (fresh (zeroFile n)) := by
  have h1 : ¬ n < MinSz := by omega
  simp [New, zeroFile, File.ofBytes, fresh, h1]

theorem bytes_sectionReader (data : List Byte) (off n : Nat) :
    (View.sectionReader (File.ofBytes data) off n).bytes = (data.drop off).take n := rfl

theorem bytes_file (data : List Byte) : (View.file (File.ofBytes data)).bytes = data := by
  simp [View.bytes, File.ofBytes]

/-! ## Boundaries of successive searches -/

/-- C4: for two consecutive successful `findBoundary` calls on the same
Chunker with no `Reset` in between, the second call's start equals the first
call's end, and each call's end is strictly greater than its start. -/
theorem C4_boundaries_contiguous (fuel1 fuel2 : Nat) (c c1 c2 : Chunker) (s1 e1 s2 e2 : Nat)
    (h1 : findBoundary fuel1 c = some (c1, (s1, e1, none)))
    (h2 : findBoundary fuel2 c1 = some (c2, (s2, e2, none))) :
    s2 = e1 ∧ s1 < e1 ∧ s2 < e2 := by
  obtain ⟨a1, a2, a3⟩ := findLoop_ok _ _ _ _ _ _ h1
  obtain ⟨b1, b2, b3⟩ := findLoop_ok _ _ _ _ _ _ h2
  simp only [MinSz] at a3 b3
  omega

/-- Witness of C4: the first two searches on a file of `3 * MinSz` zero
bytes. -/
theorem C4_boundaries_contiguous_witness :
    findBoundary 1 (fresh (zeroFile (3 * MinSz))) =
      some ({ fresh (zeroFile (3 * MinSz)) with hash := 0, pos := 0 + MinSz + 1, off := 1 },
        (0, 0 + MinSz + 1, none)) ∧
    findBoundary 1
        { fresh (zeroFile (3 * MinSz)) with hash := 0, pos := 0 + MinSz + 1, off := 1 } =
      some ({ fresh (zeroFile (3 * MinSz)) with
          hash := 0, pos := 0 + MinSz + 1 + MinSz + 1, off := 1 },
        (0 + MinSz + 1, 0 + MinSz + 1 + MinSz + 1, none)) ∧
    (0 + MinSz + 1 = 0 + MinSz + 1 ∧ 0 < 0 + MinSz + 1 ∧
      0 + MinSz + 1 < 0 + MinSz + 1 + MinSz + 1) :=
  have h1 := findBoundary_zeros (3 * MinSz) 0 (fresh (zeroFile (3 * MinSz))) rfl rfl rfl
    (by decide)
  have h2 := findBoundary_zeros (3 * MinSz) 0
    { fresh (zeroFile (3 * MinSz)) with hash := 0, pos := 0 + MinSz + 1, off := 1 } rfl rfl rfl
    (by decide)
  ⟨h1, h2, C4_boundaries_contiguous 1 1 _ _ _ _ _ _ _ h1 h2⟩

/-- C9: for every successful `findBoundary` call the chunk length `end - start`
is at least `MinSz`. -/
theorem C9_chunk_at_least_MinSz (fuel : Nat) (c c1 : Chunker) (s e : Nat)
    (h : findBoundary fuel c = some (c1, (s, e, none))) :
    s + MinSz ≤ e ∧ MinSz ≤ e - s := by
  obtain ⟨a1, a2, a3⟩ := findLoop_ok _ _ _ _ _ _ h
  simp only at a3
  omega

/-- Witness of C9: the first search on a file of `MinSz + 6` zero bytes. -/
theorem C9_chunk_at_least_MinSz_witness :
    findBoundary 1 (fresh (zeroFile (MinSz + 6))) =
      some ({ fresh (zeroFile (MinSz + 6)) with hash := 0, pos := 0 + MinSz + 1, off := 1 },
        (0, 0 + MinSz + 1, none)) ∧
    (0 + MinSz ≤ 0 + MinSz + 1 ∧ MinSz ≤ 0 + MinSz + 1 - 0) :=
  have h1 := findBoundary_zeros (MinSz + 6) 0 (fresh (zeroFile (MinSz + 6))) rfl rfl rfl
    (by decide)
  ⟨h1, C9_chunk_at_least_MinSz 1 _ _ _ _ h1⟩

end Rabin

namespace Rabin

/-! ## Unfolding the caller's loop -/

theorem pass_of_none (fuel n : Nat) (c : Chunker) (h : Next fuel c = none) :
    pass fuel (n + 1) c = none := by
  rw [pass, h]

theorem pass_of_err (fuel n : Nat) (c c1 : Chunker) (v : Option View) (e : Error)
    (h : Next fuel c = some (c1, (v, some e))) :
    pass fuel (n + 1) c = some ([], e, c1) := by
  rw [pass, h]
  cases v <;> rfl

theorem pass_of_nil (fuel n : Nat) (c c1 : Chunker)
    (h : Next fuel c = some (c1, (none, none))) :
    pass fuel (n + 1) c = some ([], Error.other 0, c1) := by
  rw [pass, h]

theorem pass_of_view (fuel n : Nat) (c c1 : Chunker) (v : View)
    (h : Next fuel c = some (c1, (some v, none))) :
    pass fuel (n + 1) c =
      match pass fuel n c1 with
      | none => none
      | some (vs, e, c2) => some (v :: vs, e, c2) := by
  rw [pass, h]

theorem pass_cons (fuel n : Nat) (c c1 c2 : Chunker) (v : View) (vs : List View) (e : Error)
    (h1 : Next fuel c = some (c1, (some v, none)))
    (h2 : pass fuel n c1 = some (vs, e, c2)) :
    pass fuel (n + 1) c = some (v :: vs, e, c2) := by
  rw [pass_of_view fuel n c c1 v h1, h2]

end Rabin

namespace Rabin

/-! ## Unfolding `Next` -/

theorem Next_of_single (fuel : Nat) (c : Chunker) (hs : c.single = true) :
    Next fuel c =
      match c.rd.Seek with
      | some e => some (c, (none, some e))
      | none => some (c, (some (View.file c.rd), none)) := by
  unfold Next
  rw [if_pos hs]

theorem Next_of_search_none (fuel : Nat) (c : Chunker) (hs : c.single = false)
    (h : findBoundary fuel c = none) : Next fuel c = none := by
  unfold Next
  rw [if_neg (by simp [hs]), h]

theorem Next_of_search_err (fuel : Nat) (c c1 : Chunker) (a b : Nat) (e : Error)
    (hs : c.single = false) (h : findBoundary fuel c = some (c1, (a, b, some e))) :
    Next fuel c = some (c1, (none, some e)) := by
  unfold Next
  rw [if_neg (by simp [hs]), h]

theorem Next_of_search_ok (fuel : Nat) (c c1 : Chunker) (a b : Nat)
    (hs : c.single = false) (h : findBoundary fuel c = some (c1, (a, b, none))) :
    Next fuel c = some (c1, (some (View.sectionReader c1.rd a b), none)) := by
  unfold Next
  rw [if_neg (by simp [hs]), h]

end Rabin

namespace Rabin

/-! ## The contents of the read buffer do not matter -/

theorem findLoop_sim {start : Nat} : ∀ (fuel : Nat) (c d : Chunker) (ls : List Byte)
    (c1 : Chunker) (r : Nat × Nat × Option Error),
    SameButBuf c d → findLoop start fuel c ls = some (c1, r) →
      ∃ d1, findLoop start fuel d ls = some (d1, r) ∧ SameButBuf c1 d1 := by
  intro fuel
  induction fuel with
  | zero => intro c d ls c1 r _ h; simp [findLoop] at h
  | succ n ih =>
    intro c d ls c1 r hs h
    obtain ⟨ch, cp, co, cb, csg, crd⟩ := c
    obtain ⟨dh, dp, d_o, db, dsg, drd⟩ := d
    simp only [SameButBuf] at hs
    obtain ⟨rfl, rfl, rfl, hlen, rfl, rfl⟩ := hs
    rw [findLoop] at h ⊢
    simp only [← hlen] at h ⊢
    split at h
    · refine ih _ _ _ _ _ ?_ h
      simp [SameButBuf]
      omega
    · simp only [Option.some.injEq, Prod.mk.injEq] at h
      obtain ⟨rfl, rfl⟩ := h
      refine ⟨_, rfl, ?_⟩
      simp [SameButBuf]
      omega
    · simp only [Option.some.injEq, Prod.mk.injEq] at h
      obtain ⟨rfl, rfl⟩ := h
      refine ⟨_, rfl, ?_⟩
      simp [SameButBuf]
      omega

theorem findBoundary_sim (fuel : Nat) (c d c1 : Chunker) (r : Nat × Nat × Option Error)
    (hs : SameButBuf c d) (h : findBoundary fuel c = some (c1, r)) :
    ∃ d1, findBoundary fuel d = some (d1, r) ∧ SameButBuf c1 d1 := by
  obtain ⟨hh, hp, ho, hb, hsg, hrd⟩ := hs
  have hs1 : SameButBuf { c with off := 0, pos := c.pos + MinSz }
      { d with off := 0, pos := c.pos + MinSz } :=
    ⟨hh, rfl, rfl, hb, hsg, hrd⟩
  unfold findBoundary at h ⊢
  rw [← hp]
  exact findLoop_sim _ _ _ _ _ _ hs1 h

theorem Next_sim (fuel : Nat) (c d c1 : Chunker) (res : Option View × Option Error)
    (hs : SameButBuf c d) (h : Next fuel c = some (c1, res)) :
    ∃ d1, Next fuel d = some (d1, res) ∧ SameButBuf c1 d1 := by
  have hsg : c.single = d.single := hs.2.2.2.2.1
  have hrd : c.rd = d.rd := hs.2.2.2.2.2
  cases hsingle : c.single with
  | true =>
    rw [Next_of_single fuel c hsingle] at h
    rw [Next_of_single fuel d (by rw [← hsg]; exact hsingle), ← hrd]
    cases hseek : c.rd.Seek with
    | none =>
      rw [hseek] at h
      simp only [Option.some.injEq, Prod.mk.injEq] at h
      obtain ⟨rfl, rfl⟩ := h
      exact ⟨d, rfl, hs⟩
    | some e =>
      rw [hseek] at h
      simp only [Option.some.injEq, Prod.mk.injEq] at h
      obtain ⟨rfl, rfl⟩ := h
      exact ⟨d, rfl, hs⟩
  | false =>
    have hdsingle : d.single = false := by rw [← hsg]; exact hsingle
    cases hf : findBoundary fuel c with
    | none =>
      rw [Next_of_search_none fuel c hsingle hf] at h
      simp at h
    | some x =>
      obtain ⟨c2, a, b, err⟩ := x
      obtain ⟨d2, hd, hs2⟩ := findBoundary_sim fuel c d c2 (a, b, err) hs hf
      cases err with
      | none =>
        rw [Next_of_search_ok fuel c c2 a b hsingle hf] at h
        simp only [Option.some.injEq, Prod.mk.injEq] at h
        obtain ⟨rfl, rfl⟩ := h
        refine ⟨d2, ?_, hs2⟩
        rw [Next_of_search_ok fuel d d2 a b hdsingle hd, hs2.2.2.2.2.2]
      | some e =>
        rw [Next_of_search_err fuel c c2 a b e hsingle hf] at h
        simp only [Option.some.injEq, Prod.mk.injEq] at h
        obtain ⟨rfl, rfl⟩ := h
        exact ⟨d2, Next_of_search_err fuel d d2 a b e hdsingle hd, hs2⟩

theorem pass_sim (fuel : Nat) : ∀ (calls : Nat) (c d c1 : Chunker) (vs : List View) (e : Error),
    SameButBuf c d → pass fuel calls c = some (vs, e, c1) →
      ∃ d1, pass fuel calls d = some (vs, e, d1) ∧ SameButBuf c1 d1 := by
  intro calls
  induction calls with
  | zero => intro c d c1 vs e _ h; simp [pass] at h
  | succ n ih =>
    intro c d c1 vs e hs h
    cases hN : Next fuel c with
    | none =>
      rw [pass_of_none fuel n c hN] at h
      simp at h
    | some x =>
      obtain ⟨c2, v, err⟩ := x
      obtain ⟨d2, hd, hs2⟩ := Next_sim fuel c d c2 (v, err) hs hN
      cases err with
      | some e1 =>
        rw [pass_of_err fuel n c c2 v e1 hN] at h
        simp only [Option.some.injEq, Prod.mk.injEq] at h
        obtain ⟨rfl, rfl, rfl⟩ := h
        exact ⟨d2, pass_of_err fuel n d d2 v e1 hd, hs2⟩
      | none =>
        cases v with
        | none =>
          rw [pass_of_nil fuel n c c2 hN] at h
          simp only [Option.some.injEq, Prod.mk.injEq] at h
          obtain ⟨rfl, rfl, rfl⟩ := h
          exact ⟨d2, pass_of_nil fuel n d d2 hd, hs2⟩
        | some v1 =>
          rw [pass_of_view fuel n c c2 v1 hN] at h
          cases hP : pass fuel n c2 with
          | none => simp [hP] at h
          | some y =>
            obtain ⟨ws, e2, c3⟩ := y
            obtain ⟨d3, hd3, hs3⟩ := ih c2 d2 c3 ws e2 hs2 hP
            rw [hP] at h
            simp only [Option.some.injEq, Prod.mk.injEq] at h
            obtain ⟨rfl, rfl, rfl⟩ := h
            exact ⟨d3, pass_cons fuel n d d2 d3 v1 ws e2 hd hd3, hs3⟩

end Rabin

namespace Rabin

/-! ## Invariants and termination on byte-sequence files -/

theorem ofBytes_read_length_le (data : List Byte) (len off : Nat) :
    ((File.ofBytes data).ReadAt len off).1.length ≤ len := by
  rw [ofBytes_ReadAt]
  simp only [List.length_take]
  omega

theorem ofBytes_read_full (data : List Byte) (len off : Nat)
    (h : ((File.ofBytes data).ReadAt len off).2 = none) :
    ((File.ofBytes data).ReadAt len off).1.length = len := by
  have h1 := ofBytes_read_length_le data len off
  rw [ofBytes_ReadAt] at h h1 ⊢
  simp only at h h1 ⊢
  split at h
  · simp at h
  · omega

theorem buf_length_after_read (bs buf : List Byte) (h : bs.length ≤ buf.length) :
    (bs ++ buf.drop bs.length).length = buf.length := by
  simp only [List.length_append, List.length_drop]
  omega

theorem findLoop_buf_length {start : Nat} (data : List Byte) : ∀ (fuel : Nat) (c : Chunker)
    (ls : List Byte) (c1 : Chunker) (r : Nat × Nat × Option Error),
    c.rd = File.ofBytes data → findLoop start fuel c ls = some (c1, r) →
      c1.buf.length = c.buf.length := by
  intro fuel
  induction fuel with
  | zero => intro c ls c1 r _ h; simp [findLoop] at h
  | succ n ih =>
    intro c ls c1 r hrd h
    have hlen := buf_length_after_read ((File.ofBytes data).ReadAt c.buf.length c.pos).1 c.buf
      (ofBytes_read_length_le data _ _)
    rw [findLoop] at h
    simp only [hrd] at h
    split at h
    · have h1 := ih _ _ _ _ (by simp [hrd]) h
      simp only at h1
      rw [h1, hlen]
    · simp only [Option.some.injEq, Prod.mk.injEq] at h
      obtain ⟨rfl, -⟩ := h
      exact hlen
    · simp only [Option.some.injEq, Prod.mk.injEq] at h
      obtain ⟨rfl, -⟩ := h
      exact hlen

/-- On a byte-sequence file read through a buffer of `bufSz` bytes the outer
loop returns: an iteration goes on only after a full block with no stop, which
raises `off` by `bufSz` and keeps it at most `MaxSz`. -/
theorem findLoop_returns {start : Nat} (data : List Byte) : ∀ (fuel : Nat) (c : Chunker)
    (ls : List Byte),
    c.rd = File.ofBytes data → c.buf.length = bufSz → c.off ≤ MaxSz →
      MaxSz < c.off + fuel * bufSz → ∃ x, findLoop start fuel c ls = some x := by
  intro fuel
  induction fuel with
  | zero => intro c ls _ _ h1 h2; omega
  | succ n ih =>
    intro c ls hrd hb ho hf
    have hlen := buf_length_after_read ((File.ofBytes data).ReadAt c.buf.length c.pos).1 c.buf
      (ofBytes_read_length_le data _ _)
    have hsc := scanBlock_off_le ((File.ofBytes data).ReadAt c.buf.length c.pos).1 c.hash c.off
      ls ho
    have hnd := scanBlock_not_done ((File.ofBytes data).ReadAt c.buf.length c.pos).1 c.hash
      c.off ls
    rw [findLoop]
    simp only [hrd]
    split
    · rename_i herr
      split at herr
      · simp at herr
      · rename_i hdone
        have hdone1 : (scanBlock c.hash c.off ls
            ((File.ofBytes data).ReadAt c.buf.length c.pos).1).done = false := by
          simpa using hdone
        have hfull := ofBytes_read_full data _ _ herr
        have hoff := hnd hdone1
        refine ih _ _ (by simp) (by simp only; rw [hlen, hb]) ?_ ?_
        · exact hsc.2 hdone1
        · simp only
          rw [hoff, hfull, hb]
          have : (n + 1) * bufSz = n * bufSz + bufSz := by ring
          omega
    · exact ⟨_, rfl⟩
    · exact ⟨_, rfl⟩

theorem findBoundary_returns (data : List Byte) (fuel : Nat) (c : Chunker)
    (hrd : c.rd = File.ofBytes data) (hb : c.buf.length = bufSz) (hf : 641 ≤ fuel) :
    ∃ x, findBoundary fuel c = some x := by
  unfold findBoundary
  refine findLoop_returns data fuel _ _ hrd hb (Nat.zero_le _) ?_
  simp only [Nat.zero_add]
  have h1 : 641 * bufSz ≤ fuel * bufSz := Nat.mul_le_mul_right _ hf
  have h2 : MaxSz < 641 * bufSz := by decide
  omega

end Rabin

namespace Rabin

/-! ## Whole passes -/

theorem findBoundary_ok (fuel : Nat) (c c1 : Chunker) (s e : Nat)
    (h : findBoundary fuel c = some (c1, (s, e, none))) :
    s = c.pos ∧ e = c1.pos ∧ c.pos + MinSz ≤ c1.pos :=
  findLoop_ok fuel { c with off := 0, pos := c.pos + MinSz } _ c1 s e h

theorem findBoundary_fields (fuel : Nat) (c c1 : Chunker) (r : Nat × Nat × Option Error)
    (h : findBoundary fuel c = some (c1, r)) : c1.rd = c.rd ∧ c1.single = c.single :=
  findLoop_fields fuel { c with off := 0, pos := c.pos + MinSz } _ c1 r h

theorem findBoundary_buf_length (data : List Byte) (fuel : Nat) (c c1 : Chunker)
    (r : Nat × Nat × Option Error) (hrd : c.rd = File.ofBytes data)
    (h : findBoundary fuel c = some (c1, r)) : c1.buf.length = c.buf.length :=
  findLoop_buf_length data fuel { c with off := 0, pos := c.pos + MinSz } _ c1 r hrd h

theorem Next_fields (data : List Byte) (fuel : Nat) (c c1 : Chunker)
    (res : Option View × Option Error) (hrd : c.rd = File.ofBytes data)
    (h : Next fuel c = some (c1, res)) :
    c1.rd = c.rd ∧ c1.single = c.single ∧ c1.buf.length = c.buf.length ∧
      (c.single = false → res.2 = none → c.pos + MinSz ≤ c1.pos) := by
  cases hsingle : c.single with
  | true =>
    rw [Next_of_single fuel c hsingle] at h
    cases hseek : c.rd.Seek with
    | none =>
      rw [hseek] at h
      simp only [Option.some.injEq, Prod.mk.injEq] at h
      obtain ⟨rfl, rfl⟩ := h
      exact ⟨rfl, hsingle, rfl, fun h1 => by simp at h1⟩
    | some e =>
      rw [hseek] at h
      simp only [Option.some.injEq, Prod.mk.injEq] at h
      obtain ⟨rfl, rfl⟩ := h
      exact ⟨rfl, hsingle, rfl, fun h1 => by simp at h1⟩
  | false =>
    cases hf : findBoundary fuel c with
    | none =>
      rw [Next_of_search_none fuel c hsingle hf] at h
      simp at h
    | some x =>
      obtain ⟨c2, a, b, err⟩ := x
      have hfl := findBoundary_fields fuel c c2 _ hf
      have hbl := findBoundary_buf_length data fuel c c2 _ hrd hf
      cases err with
      | none =>
        rw [Next_of_search_ok fuel c c2 a b hsingle hf] at h
        simp only [Option.some.injEq, Prod.mk.injEq] at h
        obtain ⟨rfl, rfl⟩ := h
        obtain ⟨-, -, h3⟩ := findBoundary_ok fuel c c2 a b hf
        exact ⟨hfl.1, by rw [hfl.2, hsingle], hbl, fun _ _ => h3⟩
      | some e =>
        rw [Next_of_search_err fuel c c2 a b e hsingle hf] at h
        simp only [Option.some.injEq, Prod.mk.injEq] at h
        obtain ⟨rfl, rfl⟩ := h
        exact ⟨hfl.1, by rw [hfl.2, hsingle], hbl, fun _ h2 => by simp at h2⟩

theorem pass_fields (data : List Byte) (fuel : Nat) : ∀ (calls : Nat) (c c1 : Chunker)
    (vs : List View) (e : Error), c.rd = File.ofBytes data →
    pass fuel calls c = some (vs, e, c1) →
      c1.rd = c.rd ∧ c1.single = c.single ∧ c1.buf.length = c.buf.length := by
  intro calls
  induction calls with
  | zero => intro c c1 vs e _ h; simp [pass] at h
  | succ n ih =>
    intro c c1 vs e hrd h
    cases hN : Next fuel c with
    | none =>
      rw [pass_of_none fuel n c hN] at h
      simp at h
    | some x =>
      obtain ⟨c2, v, err⟩ := x
      obtain ⟨f1, f2, f3, -⟩ := Next_fields data fuel c c2 (v, err) hrd hN
      cases err with
      | some e1 =>
        rw [pass_of_err fuel n c c2 v e1 hN] at h
        simp only [Option.some.injEq, Prod.mk.injEq] at h
        obtain ⟨-, -, rfl⟩ := h
        exact ⟨f1, f2, f3⟩
      | none =>
        cases v with
        | none =>
          rw [pass_of_nil fuel n c c2 hN] at h
          simp only [Option.some.injEq, Prod.mk.injEq] at h
          obtain ⟨-, -, rfl⟩ := h
          exact ⟨f1, f2, f3⟩
        | some v1 =>
          rw [pass_of_view fuel n c c2 v1 hN] at h
          cases hP : pass fuel n c2 with
          | none => simp [hP] at h
          | some y =>
            obtain ⟨ws, e2, c3⟩ := y
            rw [hP] at h
            simp only [Option.some.injEq, Prod.mk.injEq] at h
            obtain ⟨-, -, rfl⟩ := h
            obtain ⟨g1, g2, g3⟩ := ih c2 c3 ws e2 (by rw [f1, hrd]) hP
            exact ⟨by rw [g1, f1], by rw [g2, f2], by rw [g3, f3]⟩

/-- On a byte-sequence file, outside single mode, the caller's loop ends: every
successful `Next` moves `pos` forward by at least `MinSz`, and a `Next` whose
jump reaches the end returns `io.EOF`. -/
theorem pass_returns (data : List Byte) (fuel : Nat) (hf : 641 ≤ fuel) : ∀ (calls : Nat)
    (c : Chunker), c.rd = File.ofBytes data → c.single = false → c.buf.length = bufSz →
    1 ≤ calls → data.length < c.pos + calls * MinSz → ∃ x, pass fuel calls c = some x := by
  intro calls
  induction calls with
  | zero => intro c _ _ _ h; omega
  | succ n ih =>
    intro c hrd hs hb _ hlen
    obtain ⟨x, hx⟩ := findBoundary_returns data fuel c hrd hb hf
    obtain ⟨c2, a, b, err⟩ := x
    cases err with
    | some e1 =>
      exact ⟨_, pass_of_err fuel n c c2 none e1 (Next_of_search_err fuel c c2 a b e1 hs hx)⟩
    | none =>
      have hN := Next_of_search_ok fuel c c2 a b hs hx
      obtain ⟨f1, f2, f3, f4⟩ := Next_fields data fuel c c2 _ hrd hN
      have hpos := f4 hs rfl
      by_cases hend : data.length ≤ c.pos + MinSz
      · obtain ⟨k, rfl⟩ : ∃ k, fuel = k + 1 := ⟨fuel - 1, by omega⟩
        rw [Next_eof data k c hrd hs hb hend] at hN
        simp at hN
      · have hn : 1 ≤ n := by
          rcases Nat.eq_zero_or_pos n with h0 | h0
          · subst h0; omega
          · exact h0
        have hlen2 : data.length < c2.pos + n * MinSz := by
          have : (n + 1) * MinSz = n * MinSz + MinSz := by ring
          omega
        obtain ⟨y, hy⟩ := ih c2 (by rw [f1, hrd]) (by rw [f2, hs]) (by rw [f3, hb]) hn hlen2
        obtain ⟨ws, e2, c3⟩ := y
        exact ⟨_, pass_cons fuel n c c2 c3 _ ws e2 hN hy⟩

end Rabin

namespace Rabin

/-! ## Reassembly, views and end of stream -/

/-- C1: on the file of exactly `MinSz` zero bytes the very first `Next` jumps
to the end, reads nothing and returns `io.EOF`: the pass hands out no view, so
the reassembled bytes are empty and differ from the `MinSz` bytes of the
file. -/
theorem C1_reassembly_drops_bytes (fuel calls : Nat) :
    New (zeroFile MinSz) = .ok (fresh (zeroFile MinSz)) ∧
    pass (fuel + 1) (calls + 1) (fresh (zeroFile MinSz)) =
      some ([], Error.EOF, { fresh (zeroFile MinSz) with off := 0, pos := 0 + MinSz }) ∧
    reassemble [] ≠ List.replicate MinSz (0 : Byte) := by
  refine ⟨New_zeroFile MinSz (Nat.le_refl _), ?_, ?_⟩
  · have h := Next_eof (List.replicate MinSz 0) fuel (fresh (zeroFile MinSz)) rfl rfl
      (by simp [fresh]) (by simp [fresh])
    exact pass_of_err _ _ _ _ _ _ h
  · intro h
    have h1 := congrArg List.length h
    rw [List.length_replicate] at h1
    revert h1
    decide

end Rabin

namespace Rabin

/-- C3: on the file of `3 * MinSz` zero bytes the second `Next` finds the range
`[MinSz + 1, 2 * MinSz + 2)` but hands out
`io.NewSectionReader(rd, MinSz + 1, 2 * MinSz + 2)`, whose readable content is
the `2 * MinSz - 1` bytes up to the end of the file, not the `MinSz + 1` bytes
of the range. -/
theorem C3_view_longer_than_range :
    New (zeroFile (3 * MinSz)) = .ok (fresh (zeroFile (3 * MinSz))) ∧
    Next 1 (fresh (zeroFile (3 * MinSz))) =
      some ({ fresh (zeroFile (3 * MinSz)) with hash := 0, pos := 0 + MinSz + 1, off := 1 },
        (some (View.sectionReader (zeroFile (3 * MinSz)) 0 (0 + MinSz + 1)), none)) ∧
    findBoundary 1
        { fresh (zeroFile (3 * MinSz)) with hash := 0, pos := 0 + MinSz + 1, off := 1 } =
      some ({ fresh (zeroFile (3 * MinSz)) with
          hash := 0, pos := 0 + MinSz + 1 + MinSz + 1, off := 1 },
        (0 + MinSz + 1, 0 + MinSz + 1 + MinSz + 1, none)) ∧
    Next 1 { fresh (zeroFile (3 * MinSz)) with hash := 0, pos := 0 + MinSz + 1, off := 1 } =
      some ({ fresh (zeroFile (3 * MinSz)) with
          hash := 0, pos := 0 + MinSz + 1 + MinSz + 1, off := 1 },
        (some (View.sectionReader (zeroFile (3 * MinSz)) (0 + MinSz + 1)
          (0 + MinSz + 1 + MinSz + 1)), none)) ∧
    (View.sectionReader (zeroFile (3 * MinSz)) (0 + MinSz + 1)
      (0 + MinSz + 1 + MinSz + 1)).bytes.length = 2 * MinSz - 1 ∧
    (View.sectionReader (zeroFile (3 * MinSz)) (0 + MinSz + 1)
      (0 + MinSz + 1 + MinSz + 1)).bytes ≠
      ((List.replicate (3 * MinSz) (0 : Byte)).drop (0 + MinSz + 1)).take
        (0 + MinSz + 1 + MinSz + 1 - (0 + MinSz + 1)) := by
  have h1 := Next_zeros (3 * MinSz) 0 (fresh (zeroFile (3 * MinSz))) rfl rfl rfl rfl
    (by decide)
  have h2 := findBoundary_zeros (3 * MinSz) 0
    { fresh (zeroFile (3 * MinSz)) with hash := 0, pos := 0 + MinSz + 1, off := 1 } rfl rfl rfl
    (by decide)
  have h3 := Next_zeros (3 * MinSz) 0
    { fresh (zeroFile (3 * MinSz)) with hash := 0, pos := 0 + MinSz + 1, off := 1 } rfl rfl rfl
    rfl (by decide)
  have hlen : (View.sectionReader (zeroFile (3 * MinSz)) (0 + MinSz + 1)
      (0 + MinSz + 1 + MinSz + 1)).bytes.length = 2 * MinSz - 1 := by
    rw [zeroFile, bytes_sectionReader, List.drop_replicate, List.take_replicate,
      List.length_replicate]
    decide
  refine ⟨New_zeroFile _ (by decide), h1, h2, h3, hlen, ?_⟩
  intro h
  have h4 := congrArg List.length h
  rw [hlen, List.drop_replicate, List.take_replicate, List.length_replicate] at h4
  revert h4
  decide

end Rabin

namespace Rabin

/-- C5: on the file of `MinSz + 6` zero bytes the first `Next` returns the range
`[0, MinSz + 1)`; the second is called at position `MinSz + 1`, five bytes
before the end, and returns `io.EOF` with no view: the jump is not truncated
and the remaining bytes are never handed out. -/
theorem C5_short_tail_is_dropped (fuel : Nat) :
    New (zeroFile (MinSz + 6)) = .ok (fresh (zeroFile (MinSz + 6))) ∧
    Next (fuel + 1) (fresh (zeroFile (MinSz + 6))) =
      some ({ fresh (zeroFile (MinSz + 6)) with hash := 0, pos := 0 + MinSz + 1, off := 1 },
        (some (View.sectionReader (zeroFile (MinSz + 6)) 0 (0 + MinSz + 1)), none)) ∧
    0 + MinSz + 1 < MinSz + 6 ∧ MinSz + 6 - (0 + MinSz + 1) < MinSz ∧
    Next (fuel + 1)
        { fresh (zeroFile (MinSz + 6)) with hash := 0, pos := 0 + MinSz + 1, off := 1 } =
      some ({ fresh (zeroFile (MinSz + 6)) with
          hash := 0, pos := 0 + MinSz + 1 + MinSz, off := 0 },
        (none, some Error.EOF)) := by
  have h1 := Next_zeros (MinSz + 6) fuel (fresh (zeroFile (MinSz + 6))) rfl rfl rfl rfl
    (by decide)
  have h2 := Next_eof (List.replicate (MinSz + 6) 0) fuel
    { fresh (zeroFile (MinSz + 6)) with hash := 0, pos := 0 + MinSz + 1, off := 1 } rfl rfl
    (by simp [fresh]) (by rw [List.length_replicate]; decide)
  exact ⟨New_zeroFile _ (by decide), h1, by decide, by decide, h2⟩

/-- C6: on the three-byte file `1, 2, 3` the Chunker is in single mode; every
`Next` call, the second and later ones included, returns the whole file with a
nil error and leaves the state unchanged, so `io.EOF` is never returned and the
caller's loop never ends. -/
theorem C6_single_mode_never_ends (fuel calls : Nat) :
    New (File.ofBytes [1, 2, 3]) = .ok (freshSingle (File.ofBytes [1, 2, 3])) ∧
    Next fuel (freshSingle (File.ofBytes [1, 2, 3])) =
      some (freshSingle (File.ofBytes [1, 2, 3]),
        (some (View.file (File.ofBytes [1, 2, 3])), none)) ∧
    (View.file (File.ofBytes [1, 2, 3])).bytes = [1, 2, 3] ∧
    pass fuel calls (freshSingle (File.ofBytes [1, 2, 3])) = none := by
  have hN : Next fuel (freshSingle (File.ofBytes [1, 2, 3])) =
      some (freshSingle (File.ofBytes [1, 2, 3]),
        (some (View.file (File.ofBytes [1, 2, 3])), none)) :=
    Next_of_single fuel _ rfl
  refine ⟨?_, hN, bytes_file _, ?_⟩
  · have h3 : (3 : Nat) < MinSz := by decide
    simp [New, File.ofBytes, freshSingle, h3]
  · induction calls with
    | zero => rfl
    | succ n ih => rw [pass_of_view fuel n _ _ _ hN, ih]

/-- C10: a Chunker created on the one-byte file `7` and reset to the file of
`MinSz` zero bytes stays in single mode and hands out the whole file, while a
Chunker freshly created on that file returns `io.EOF`. -/
theorem C10_reset_keeps_single_mode (fuel : Nat) :
    New (File.ofBytes [7]) = .ok (freshSingle (File.ofBytes [7])) ∧
    Reset (freshSingle (File.ofBytes [7])) (some (zeroFile MinSz)) =
      (freshSingle (zeroFile MinSz), none) ∧
    Next (fuel + 1) (freshSingle (zeroFile MinSz)) =
      some (freshSingle (zeroFile MinSz), (some (View.file (zeroFile MinSz)), none)) ∧
    New (zeroFile MinSz) = .ok (fresh (zeroFile MinSz)) ∧
    Next (fuel + 1) (fresh (zeroFile MinSz)) =
      some ({ fresh (zeroFile MinSz) with off := 0, pos := 0 + MinSz },
        (none, some Error.EOF)) := by
  refine ⟨?_, rfl, Next_of_single _ _ rfl, New_zeroFile MinSz (Nat.le_refl _), ?_⟩
  · have h1 : (1 : Nat) < MinSz := by decide
    simp [New, File.ofBytes, freshSingle, h1]
  · exact Next_eof (List.replicate MinSz 0) fuel (fresh (zeroFile MinSz)) rfl rfl
      (by simp [fresh]) (by simp [fresh])

end Rabin

namespace Rabin

/-! ## Determinism -/

/-- A whole pass over the file of `3 * MinSz` zero bytes: two views, then
`io.EOF`. -/
theorem pass_zeroFile_three (fuel calls : Nat) :
    pass (fuel + 1) (calls + 1 + 1 + 1) (fresh (zeroFile (3 * MinSz))) =
      some ([View.sectionReader (zeroFile (3 * MinSz)) 0 (0 + MinSz + 1),
          View.sectionReader (zeroFile (3 * MinSz)) (0 + MinSz + 1) (0 + MinSz + 1 + MinSz + 1)],
        Error.EOF,
        { fresh (zeroFile (3 * MinSz)) with
          hash := 0, pos := 0 + MinSz + 1 + MinSz + 1 + MinSz, off := 0 }) := by
  have h1 := Next_zeros (3 * MinSz) fuel (fresh (zeroFile (3 * MinSz))) rfl rfl rfl rfl
    (by decide)
  have h2 := Next_zeros (3 * MinSz) fuel
    { fresh (zeroFile (3 * MinSz)) with hash := 0, pos := 0 + MinSz + 1, off := 1 } rfl rfl rfl
    rfl (by decide)
  have h3 := Next_eof (List.replicate (3 * MinSz) 0) fuel
    { fresh (zeroFile (3 * MinSz)) with hash := 0, pos := 0 + MinSz + 1 + MinSz + 1, off := 1 }
    rfl rfl (by simp [fresh]) (by rw [List.length_replicate]; decide)
  exact pass_cons _ _ _ _ _ _ _ _ h1 (pass_cons _ _ _ _ _ _ _ _ h2 (pass_of_err _ _ _ _ _ _ h3))

theorem New_ofBytes (data : List Byte) (c0 : Chunker) (h : New (File.ofBytes data) = .ok c0) :
    c0.rd = File.ofBytes data ∧ c0.hash = 0 ∧ c0.pos = 0 ∧ c0.off = 0 ∧
      (MinSz ≤ data.length → c0.single = false ∧ c0.buf.length = bufSz) := by
  unfold New at h
  simp only [File.ofBytes] at h
  split at h
  · have h1 := Except.ok.inj h
    subst h1
    exact ⟨rfl, rfl, rfl, rfl, fun h => by omega⟩
  · have h1 := Except.ok.inj h
    subst h1
    exact ⟨rfl, rfl, rfl, rfl, fun _ => ⟨rfl, List.length_replicate _ _⟩⟩

theorem Reset_nil_ofBytes (data : List Byte) (c : Chunker) (hrd : c.rd = File.ofBytes data) :
    Reset c none = ({ c with hash := 0, pos := 0, off := 0, rd := c.rd }, none) := by
  unfold Reset
  simp only [Option.getD_none]
  rw [hrd]
  rfl

end Rabin

namespace Rabin

/-- C2: chunking is deterministic. On every byte-sequence file, when a full
pass of `Next` calls (up to the first error) from the Chunker returned by `New`
is followed by a successful `Reset(nil)`, a second full pass returns, with the
same sequence of views (same file, same start and end) and the same final
error. For a file of at least `MinSz` bytes the first pass does return, given
641 iterations of fuel per search and more than `length / MinSz` calls. -/
theorem C2_reset_repeats_pass (data : List Byte) (fuel calls : Nat) (c0 c1 c2 : Chunker)
    (vs : List View) (e : Error)
    (hNew : New (File.ofBytes data) = .ok c0)
    (hpass : pass fuel calls c0 = some (vs, e, c1))
    (hReset : Reset c1 none = (c2, none)) :
    (∃ c3, pass fuel calls c2 = some (vs, e, c3)) ∧
    (MinSz ≤ data.length → ∀ fuel1 calls1, 641 ≤ fuel1 → data.length < calls1 * MinSz →
      ∃ x, pass fuel1 calls1 c0 = some x) := by
  obtain ⟨hrd, hh, hp, ho, hbig⟩ := New_ofBytes data c0 hNew
  constructor
  · obtain ⟨f1, f2, f3⟩ := pass_fields data fuel calls c0 c1 vs e hrd hpass
    rw [Reset_nil_ofBytes data c1 (by rw [f1, hrd])] at hReset
    have hc2 : c2 = { c1 with hash := 0, pos := 0, off := 0, rd := c1.rd } :=
      (congrArg Prod.fst hReset).symm
    have hs : SameButBuf c0 c2 := by
      rw [hc2]
      exact ⟨hh, hp, ho, f3.symm, f2.symm, f1.symm⟩
    obtain ⟨d1, hd, -⟩ := pass_sim fuel calls c0 c2 c1 vs e hs hpass
    exact ⟨d1, hd⟩
  · intro hlen fuel1 calls1 hf hc
    obtain ⟨hs, hb⟩ := hbig hlen
    have h1 : 1 ≤ calls1 := by
      rcases Nat.eq_zero_or_pos calls1 with h | h
      · subst h; omega
      · exact h
    exact pass_returns data fuel1 hf calls1 c0 hrd hs hb h1 (by omega)

/-- Witness of C2: the file of `3 * MinSz` zero bytes, whose pass hands out two
views before `io.EOF`. -/
theorem C2_reset_repeats_pass_witness :
    New (File.ofBytes (List.replicate (3 * MinSz) 0)) = .ok (fresh (zeroFile (3 * MinSz))) ∧
    pass 641 4 (fresh (zeroFile (3 * MinSz))) =
      some ([View.sectionReader (zeroFile (3 * MinSz)) 0 (0 + MinSz + 1),
          View.sectionReader (zeroFile (3 * MinSz)) (0 + MinSz + 1) (0 + MinSz + 1 + MinSz + 1)],
        Error.EOF,
        { fresh (zeroFile (3 * MinSz)) with
          hash := 0, pos := 0 + MinSz + 1 + MinSz + 1 + MinSz, off := 0 }) ∧
    Reset { fresh (zeroFile (3 * MinSz)) with
        hash := 0, pos := 0 + MinSz + 1 + MinSz + 1 + MinSz, off := 0 } none =
      (fresh (zeroFile (3 * MinSz)), none) ∧
    ((∃ c3, pass 641 4 (fresh (zeroFile (3 * MinSz))) =
      some ([View.sectionReader (zeroFile (3 * MinSz)) 0 (0 + MinSz + 1),
          View.sectionReader (zeroFile (3 * MinSz)) (0 + MinSz + 1) (0 + MinSz + 1 + MinSz + 1)],
        Error.EOF, c3)) ∧
    (MinSz ≤ (List.replicate (3 * MinSz) (0 : Byte)).length → ∀ fuel1 calls1, 641 ≤ fuel1 →
      (List.replicate (3 * MinSz) (0 : Byte)).length < calls1 * MinSz →
      ∃ x, pass fuel1 calls1 (fresh (zeroFile (3 * MinSz))) = some x)) :=
  have hNew : New (File.ofBytes (List.replicate (3 * MinSz) 0)) =
      .ok (fresh (zeroFile (3 * MinSz))) := New_zeroFile (3 * MinSz) (by decide)
  have hpass := pass_zeroFile_three 640 1
  have hReset : Reset { fresh (zeroFile (3 * MinSz)) with
        hash := 0, pos := 0 + MinSz + 1 + MinSz + 1 + MinSz, off := 0 } none =
      (fresh (zeroFile (3 * MinSz)), none) :=
    Reset_nil_ofBytes (List.replicate (3 * MinSz) 0) _ rfl
  ⟨hNew, hpass, hReset,
    C2_reset_repeats_pass (List.replicate (3 * MinSz) 0) 641 4 _ _ _ _ _ hNew hpass hReset⟩

end Rabin

namespace Rabin

/-! ## The table and the arithmetic of one update -/

theorem pow_window : Prime ^ Window % (1 <<< Shift) = 1057584897 := by decide

theorem mod_eq : mod = 2 ^ 31 - 1 := by decide

theorem popTable_eq (i : Byte) : popTable i = i.val * 1057584897 := by
  have hi : i.val < 256 := i.isLt
  unfold popTable u64
  rw [pow_window]
  omega

theorem update_eq (h : Nat) (b o : Byte) :
    update h b o =
      ((h * 65521 % 2 ^ 64 + b.val) % 2 ^ 64 + 2 ^ 64 - o.val * 1057584897) % 2 ^ 64 % 2 ^ 31 := by
  unfold update
  simp only [mod_eq, Nat.and_pow_two_sub_one_eq_mod, popTable_eq, u64, Prime]

theorem update_int (h : Nat) (b o : Byte) :
    ((update h b o : Nat) : Int) =
      ((h : Int) * 65521 + (b.val : Int) -
        (o.val : Int) * 115368773083406531811195955330938200073304864163668460305155754678164266776321)
        % 2147483648 := by
  have hb : b.val < 256 := b.isLt
  have ho : o.val < 256 := o.isLt
  rw [update_eq]
  omega

theorem update_lt (h : Nat) (b o : Byte) : update h b o < 2 ^ 31 := by
  rw [update_eq]
  exact Nat.mod_lt _ (by decide)

theorem stop_iff (h off : Nat) : stop h off = true ↔ (h % 2 ^ 13 = 0 ∨ off > MaxSz) := by
  unfold stop u64 Mask
  simp only [Bool.or_eq_true, beq_iff_eq, decide_eq_true_eq, Nat.shiftLeft_eq]
  constructor
  · rintro (h1 | h1)
    · left; omega
    · right; exact h1
  · rintro (h1 | h1)
    · left; omega
    · right; exact h1

end Rabin

namespace Rabin

/-- C12, as stated, fails at `i = 3`: `init` stores `3 * (Prime^Window mod 2^31)
= 3172754691`, which is not reduced modulo `2^31`, while
`(3 * Prime^Window) mod 2^31 = 1025271043`. -/
theorem C12_entry_three_not_reduced :
    popTable 3 = 3172754691 ∧ (3 * Prime ^ Window) % 2 ^ Shift = 1025271043 ∧
      popTable 3 ≠ ((3 : Byte).val * Prime ^ Window) % 2 ^ Shift := by
  decide

/-- C12, amended: for every `i` in `0..255` the entry `popTable[i]` equals
`i * (Prime^Window mod 2^Shift)`, the product being left unreduced; it is
congruent to `i * Prime^Window` modulo `2^Shift` and below `2^39`. -/
theorem C12_popTable_entries (i : Byte) :
    popTable i = i.val * (Prime ^ Window % 2 ^ Shift) ∧
      popTable i % 2 ^ Shift = (i.val * Prime ^ Window) % 2 ^ Shift ∧
      popTable i < 2 ^ 39 := by
  have hi : i.val < 256 := i.isLt
  have hc : Prime ^ Window % 2 ^ Shift = 1057584897 := by decide
  refine ⟨?_, ?_, ?_⟩
  · rw [popTable_eq, hc]
  · rw [popTable_eq, ← hc, Nat.mul_mod_mod]
  · rw [popTable_eq]
    omega

/-- C13: for every hash value `h`, incoming byte `b` and outgoing byte `o`, the
scanner's wrap-around update (multiply, add, subtract the table entry, each
modulo `2^64`, then mask with `mod`) equals the mathematical value
`(h * Prime + b - o * Prime^Window) mod 2^Shift`, taken as a non-negative
residue. -/
theorem C13_update_is_residue (h : Nat) (b o : Byte) :
    ((update h b o : Nat) : Int) =
      ((h : Int) * (Prime : Int) + (b.val : Int) - (o.val : Int) * (Prime : Int) ^ Window)
        % 2 ^ Shift := by
  rw [update_int]
  norm_num [Prime, Window, Shift]

/-- C17, as stated, fails: the hash `1` is below `2^18` but does not stop the
search, and the hash `2^18` is not below `2^18` but stops it. -/
theorem C17_top_bits_is_wrong :
    stop 1 1 = false ∧ (1 : Nat) < 2 ^ 18 ∧ ¬ (1 > MaxSz) ∧
      stop (2 ^ 18) 1 = true ∧ ¬ ((2 : Nat) ^ 18 < 2 ^ 18) := by
  decide

/-- C17, amended: the stop condition holds after a byte has been fed exactly
when the `13 = 64 - Mask` lowest-order bits of the hash are all zero
(`hash mod 2^13 = 0`) or `off` exceeds `MaxSz`. -/
theorem C17_stop_low_bits (h off : Nat) :
    stop h off = true ↔ (h % 2 ^ (64 - Mask) = 0 ∨ off > MaxSz) := by
  rw [stop_iff]
  rfl

/-- C18: the 64-bit test `h << Mask == 0` holds exactly when `h mod 2^13 = 0`,
and exactly `2^18` of the `2^31` hash values below `2^Shift` pass it. -/
theorem C18_stop_test_is_13_bits :
    (∀ h : Nat, u64 (h <<< Mask) = 0 ↔ h % 2 ^ 13 = 0) ∧
      ((Finset.range (2 ^ Shift)).filter (fun h => u64 (h <<< Mask) = 0)).card = 2 ^ 18 := by
  have h1 : ∀ h : Nat, u64 (h <<< Mask) = 0 ↔ h % 2 ^ 13 = 0 := by
    intro h
    unfold u64 Mask
    rw [Nat.shiftLeft_eq]
    constructor <;> intro h2 <;> omega
  refine ⟨h1, ?_⟩
  have h2 : (Finset.range (2 ^ Shift)).filter (fun h => u64 (h <<< Mask) = 0) =
      (Finset.range (2 ^ Shift)).filter (fun h => h ≡ 0 [MOD 2 ^ 13]) := by
    apply Finset.filter_congr
    intro h _
    rw [h1 h]
    rfl
  rw [h2, ← Nat.count_eq_card_filter_range, Nat.count_modEq_card _ (by norm_num)]
  decide

end Rabin

namespace Rabin

/-! ## The range of `hash` -/

theorem scanBlock_hash_lt (bs : List Byte) : ∀ (hash off : Nat) (ls : List Byte),
    hash < 2 ^ 31 → (scanBlock hash off ls bs).hash < 2 ^ 31 := by
  induction bs with
  | nil => intro hash off ls h; simpa [scanBlock] using h
  | cons b bs ih =>
    intro hash off ls _
    cases hs : stop (update hash b (ls.getD (off &&& (Window - 1)) 0)) (off + 1)
    · rw [scanBlock_cons_go bs hs]
      exact ih _ _ _ (update_lt _ _ _)
    · rw [scanBlock_cons_stop bs hs]
      exact update_lt _ _ _

theorem findLoop_hash_lt {start : Nat} : ∀ (fuel : Nat) (c : Chunker) (ls : List Byte)
    (c1 : Chunker) (r : Nat × Nat × Option Error),
    c.hash < 2 ^ 31 → findLoop start fuel c ls = some (c1, r) → c1.hash < 2 ^ 31 := by
  intro fuel
  induction fuel with
  | zero => intro c ls c1 r _ h; simp [findLoop] at h
  | succ n ih =>
    intro c ls c1 r hlt h
    have hsc := scanBlock_hash_lt (c.rd.ReadAt c.buf.length c.pos).1 c.hash c.off ls hlt
    rw [findLoop] at h
    simp only at h
    split at h
    · exact ih _ _ _ _ hsc h
    · simp only [Option.some.injEq, Prod.mk.injEq] at h
      obtain ⟨rfl, -⟩ := h
      exact hsc
    · simp only [Option.some.injEq, Prod.mk.injEq] at h
      obtain ⟨rfl, -⟩ := h
      exact hsc

theorem Next_hash_lt (fuel : Nat) (c c1 : Chunker) (res : Option View × Option Error)
    (hlt : c.hash < 2 ^ 31) (h : Next fuel c = some (c1, res)) : c1.hash < 2 ^ 31 := by
  cases hsingle : c.single with
  | true =>
    rw [Next_of_single fuel c hsingle] at h
    cases hseek : c.rd.Seek with
    | none =>
      rw [hseek] at h
      simp only [Option.some.injEq, Prod.mk.injEq] at h
      obtain ⟨rfl, -⟩ := h
      exact hlt
    | some e =>
      rw [hseek] at h
      simp only [Option.some.injEq, Prod.mk.injEq] at h
      obtain ⟨rfl, -⟩ := h
      exact hlt
  | false =>
    cases hf : findBoundary fuel c with
    | none =>
      rw [Next_of_search_none fuel c hsingle hf] at h
      simp at h
    | some x =>
      obtain ⟨c2, a, b, err⟩ := x
      have h2 : c2.hash < 2 ^ 31 :=
        findLoop_hash_lt fuel { c with off := 0, pos := c.pos + MinSz } _ c2 _ hlt hf
      cases err with
      | none =>
        rw [Next_of_search_ok fuel c c2 a b hsingle hf] at h
        simp only [Option.some.injEq, Prod.mk.injEq] at h
        obtain ⟨rfl, -⟩ := h
        exact h2
      | some e =>
        rw [Next_of_search_err fuel c c2 a b e hsingle hf] at h
        simp only [Option.some.injEq, Prod.mk.injEq] at h
        obtain ⟨rfl, -⟩ := h
        exact h2

theorem New_hash (f : File) (c : Chunker) (h : New f = .ok c) : c.hash = 0 := by
  unfold New at h
  split at h
  · simp at h
  · split at h
    · have h1 := Except.ok.inj h
      subst h1
      rfl
    · have h1 := Except.ok.inj h
      subst h1
      rfl

theorem Reset_hash_lt (c : Chunker) (rd : Option File) (hlt : c.hash < 2 ^ 31) :
    (Reset c rd).1.hash < 2 ^ 31 := by
  unfold Reset
  simp only
  split
  · exact hlt
  · exact Nat.two_pow_pos 31

theorem reachable_hash_lt (c : Chunker) (h : Reachable c) : c.hash < 2 ^ 31 := by
  induction h with
  | new f c hnew => rw [New_hash f c hnew]; exact Nat.two_pow_pos 31
  | next fuel c c1 res _ hnext ih => exact Next_hash_lt fuel c c1 res ih hnext
  | reset c rd _ ih => exact Reset_hash_lt c rd ih

/-- C16: in every state reachable from `New` through any sequence of `Next` and
`Reset` calls, and after every single-byte update inside a boundary search
(whatever the hash before it), `hash` lies in `[0, 2^Shift - 1]`. -/
theorem C16_hash_in_range (c : Chunker) (h : Reachable c) :
    c.hash ≤ 2 ^ Shift - 1 ∧ (∀ (hash : Nat) (b o : Byte), update hash b o ≤ 2 ^ Shift - 1) ∧
      (∀ (bs ls : List Byte) (off : Nat), (scanBlock c.hash off ls bs).hash ≤ 2 ^ Shift - 1) := by
  have h1 := reachable_hash_lt c h
  refine ⟨?_, ?_, ?_⟩
  · simp only [Shift]; omega
  · intro hash b o
    have := update_lt hash b o
    simp only [Shift]; omega
  · intro bs ls off
    have := scanBlock_hash_lt bs c.hash off ls h1
    simp only [Shift]; omega

/-- Witness of C16: the state after `New` and one `Next` on the file of
`MinSz + 6` zero bytes. -/
theorem C16_hash_in_range_witness :
    Reachable { fresh (zeroFile (MinSz + 6)) with hash := 0, pos := 0 + MinSz + 1, off := 1 } ∧
    ({ fresh (zeroFile (MinSz + 6)) with hash := 0, pos := 0 + MinSz + 1, off := 1 }.hash
        ≤ 2 ^ Shift - 1 ∧
      (∀ (hash : Nat) (b o : Byte), update hash b o ≤ 2 ^ Shift - 1) ∧
      (∀ (bs ls : List Byte) (off : Nat),
        (scanBlock { fresh (zeroFile (MinSz + 6)) with
          hash := 0, pos := 0 + MinSz + 1, off := 1 }.hash off ls bs).hash ≤ 2 ^ Shift - 1)) :=
  have hr : Reachable
      { fresh (zeroFile (MinSz + 6)) with hash := 0, pos := 0 + MinSz + 1, off := 1 } :=
    Reachable.next 1 (fresh (zeroFile (MinSz + 6))) _ _
      (Reachable.new _ _ (New_zeroFile (MinSz + 6) (by decide)))
      (Next_zeros (MinSz + 6) 0 (fresh (zeroFile (MinSz + 6))) rfl rfl rfl rfl (by decide))
  ⟨hr, C16_hash_in_range _ hr⟩

end Rabin

namespace Rabin

/-! ## Termination for any file that honours the read contract -/

theorem ofBytes_Full (data : List Byte) : (File.ofBytes data).Full :=
  fun len off => ⟨ofBytes_read_length_le data len off, ofBytes_read_full data len off⟩

theorem stop_of_gt (hash off : Nat) (h : MaxSz < off) : stop hash off = true :=
  (stop_iff hash off).2 (Or.inr h)

theorem le_of_not_stop (hash off : Nat) (h : stop hash off = false) : off ≤ MaxSz := by
  rcases Nat.lt_or_ge MaxSz off with h1 | h1
  · rw [stop_of_gt hash off h1] at h
    simp at h
  · exact h1

/-- Under the read contract the outer loop returns within
`MaxSz / bufSz + 1 = 641` iterations, with at most `MaxSz + 1` bytes fed; only a
stop leaves `off` above `MaxSz`. -/
theorem findLoop_returns_full {start : Nat} : ∀ (fuel : Nat) (c : Chunker) (ls : List Byte),
    c.rd.Full → c.buf.length = bufSz → c.off ≤ MaxSz → MaxSz < c.off + fuel * bufSz →
      ∃ c1 r, findLoop start fuel c ls = some (c1, r) ∧ c1.off ≤ MaxSz + 1 ∧
        (MaxSz < c1.off → r.2.2 = none) := by
  intro fuel
  induction fuel with
  | zero => intro c ls _ _ h1 h2; omega
  | succ n ih =>
    intro c ls hfull hb ho hf
    obtain ⟨hle, hful⟩ := hfull c.buf.length c.pos
    have hlen := buf_length_after_read (c.rd.ReadAt c.buf.length c.pos).1 c.buf hle
    have hsc := scanBlock_off_le (c.rd.ReadAt c.buf.length c.pos).1 c.hash c.off ls ho
    have hnd := scanBlock_not_done (c.rd.ReadAt c.buf.length c.pos).1 c.hash c.off ls
    rw [findLoop]
    simp only
    cases hdone : (scanBlock c.hash c.off ls (c.rd.ReadAt c.buf.length c.pos).1).done with
    | true =>
      simp only [if_true]
      exact ⟨_, _, rfl, hsc.1, fun _ => rfl⟩
    | false =>
      simp only [Bool.false_eq_true, if_false]
      have hoff := hnd hdone
      have hle2 := hsc.2 hdone
      cases herr : (c.rd.ReadAt c.buf.length c.pos).2 with
      | none =>
        simp only
        have hfull2 := hful herr
        refine ih _ _ hfull (by simp only; rw [hlen, hb]) hle2 ?_
        simp only
        rw [hoff, hfull2, hb]
        have : (n + 1) * bufSz = n * bufSz + bufSz := by ring
        omega
      | some e =>
        cases e with
        | fpDone => exact ⟨_, _, rfl, by simp only; omega, fun _ => rfl⟩
        | EOF => exact ⟨_, _, rfl, by simp only; omega, fun h => by simp only at h; omega⟩
        | other k => exact ⟨_, _, rfl, by simp only; omega, fun h => by simp only at h; omega⟩

/-- C15: for every file that honours the read contract (a full block with no
error, or a non-nil error), read through the `bufSz`-byte buffer, every
`findBoundary` call returns (641 iterations of the outer loop suffice), feeds
at most `MaxSz + 1` bytes to the fingerprint, and the search goes on to a
further byte only while `off` is at most `MaxSz`: the cutoff fires whatever
the hash value. -/
theorem C15_search_terminates (c : Chunker) (fuel : Nat) (hfull : c.rd.Full)
    (hb : c.buf.length = bufSz) (hf : 641 ≤ fuel) :
    (∃ c1 r, findBoundary fuel c = some (c1, r) ∧ c1.off ≤ MaxSz + 1 ∧
      (MaxSz < c1.off → r.2.2 = none)) ∧
    (∀ hash off, stop hash off = false → off ≤ MaxSz) ∧
    (∀ hash off, MaxSz < off → stop hash off = true) := by
  refine ⟨?_, le_of_not_stop, stop_of_gt⟩
  unfold findBoundary
  refine findLoop_returns_full fuel _ _ hfull hb (Nat.zero_le _) ?_
  simp only [Nat.zero_add]
  have h1 : 641 * bufSz ≤ fuel * bufSz := Nat.mul_le_mul_right _ hf
  have h2 : MaxSz < 641 * bufSz := by decide
  omega

/-- Witness of C15: a fresh Chunker on the file of `MinSz + 6` zero bytes. -/
theorem C15_search_terminates_witness :
    (fresh (zeroFile (MinSz + 6))).rd.Full ∧
    (fresh (zeroFile (MinSz + 6))).buf.length = bufSz ∧ 641 ≤ 641 ∧
    ((∃ c1 r, findBoundary 641 (fresh (zeroFile (MinSz + 6))) = some (c1, r) ∧
        c1.off ≤ MaxSz + 1 ∧ (MaxSz < c1.off → r.2.2 = none)) ∧
      (∀ hash off, stop hash off = false → off ≤ MaxSz) ∧
      (∀ hash off, MaxSz < off → stop hash off = true)) :=
  ⟨ofBytes_Full _, List.length_replicate _ _, Nat.le_refl _,
    C15_search_terminates (fresh (zeroFile (MinSz + 6))) 641 (ofBytes_Full _)
      (List.length_replicate _ _) (Nat.le_refl _)⟩

end Rabin

namespace Rabin

/-! ## Read errors -/

/-- One iteration of the outer loop whose read fails: the bytes stored with
the error are scanned first; a stop among them turns the error into success,
otherwise the error is returned. -/
theorem findLoop_read_error (start fuel : Nat) (c : Chunker) (ls bs : List Byte) (e : Error)
    (hread : c.rd.ReadAt c.buf.length c.pos = (bs, some e)) (hne : e ≠ Error.fpDone) :
    findLoop start (fuel + 1) c ls =
      some ({ c with buf := bs ++ c.buf.drop bs.length, hash := (scanBlock c.hash c.off ls bs).hash,
                     off := (scanBlock c.hash c.off ls bs).off,
                     pos := c.pos + (scanBlock c.hash c.off ls bs).off },
        if (scanBlock c.hash c.off ls bs).done then
          (start, c.pos + (scanBlock c.hash c.off ls bs).off, none)
        else (0, 0, some e)) := by
  rw [findLoop]
  simp only [hread]
  cases hdone : (scanBlock c.hash c.off ls bs).done with
  | true => simp only [if_true]
  | false =>
    simp only [Bool.false_eq_true, if_false]

/-- C11, as stated, fails: every read of `faultyFile` stores one zero byte and
returns an error other than `io.EOF`, yet the first `findBoundary` succeeds
with the range `[0, MinSz + 1)` and `Next` returns a view and a nil error. -/
theorem C11_error_swallowed_by_stop :
    New faultyFile = .ok (fresh faultyFile) ∧
    faultyFile.ReadAt bufSz (0 + MinSz) = ([0], some (Error.other 1)) ∧
    (∃ c1, findBoundary 1 (fresh faultyFile) = some (c1, (0, 0 + MinSz + 1, none)) ∧
      Next 1 (fresh faultyFile) =
        some (c1, (some (View.sectionReader faultyFile 0 (0 + MinSz + 1)), none))) := by
  have h := findLoop_read_error 0 0
    { fresh faultyFile with off := 0, pos := (fresh faultyFile).pos + MinSz }
    (List.replicate Window 0) [0] (Error.other 1) rfl (by decide)
  have hs : scanBlock 0 0 (List.replicate Window 0) [0] =
      ⟨update 0 0 ((List.replicate Window 0).getD (0 &&& (Window - 1)) 0), 0 + 1,
        (List.replicate Window 0).set (0 &&& (Window - 1)) 0, true⟩ :=
    scanBlock_cons_stop [] stop_zero
  have hf : findBoundary 1 (fresh faultyFile) = _ := h
  rw [show (fresh faultyFile).hash = 0 from rfl] at hf
  simp only [hs, if_true] at hf
  have hNew : New faultyFile = .ok (fresh faultyFile) := by
    have h1 : ¬ (MinSz < MinSz) := Nat.lt_irrefl _
    simp [New, faultyFile, fresh, h1]
  refine ⟨hNew, rfl, _, hf, ?_⟩
  exact Next_of_search_ok 1 (fresh faultyFile) _ _ _ rfl hf

end Rabin

namespace Rabin

/-- C11, amended: when a positioned read of a search returns an error `e`
(`io.EOF` or any other, the private sentinel apart), the bytes stored with it
are scanned first. If no stop condition fires among them, `findBoundary` fails
with `e` and `Next` returns `(nil, e)`; if one fires, the call succeeds and `e`
is dropped. Stated for the first read of a `Next` call and, in the last part,
for the read of any later iteration of the loop. -/
theorem C11_read_error_after_scan (fuel : Nat) (c : Chunker) (bs : List Byte) (e : Error)
    (hs : c.single = false)
    (hread : c.rd.ReadAt c.buf.length (c.pos + MinSz) = (bs, some e))
    (hne : e ≠ Error.fpDone) :
    ((scanBlock c.hash 0 (List.replicate Window 0) bs).done = false →
      ∃ c1, findBoundary (fuel + 1) c = some (c1, (0, 0, some e)) ∧
        Next (fuel + 1) c = some (c1, (none, some e))) ∧
    ((scanBlock c.hash 0 (List.replicate Window 0) bs).done = true →
      ∃ c1, findBoundary (fuel + 1) c = some (c1, (c.pos,
          c.pos + MinSz + (scanBlock c.hash 0 (List.replicate Window 0) bs).off, none)) ∧
        Next (fuel + 1) c = some (c1, (some (View.sectionReader c.rd c.pos
          (c.pos + MinSz + (scanBlock c.hash 0 (List.replicate Window 0) bs).off)), none))) ∧
    (∀ (start : Nat) (d : Chunker) (ls ds : List Byte),
      d.rd.ReadAt d.buf.length d.pos = (ds, some e) →
      (scanBlock d.hash d.off ls ds).done = false →
      ∃ d1, findLoop start (fuel + 1) d ls = some (d1, (0, 0, some e))) := by
  have h := findLoop_read_error c.pos fuel { c with off := 0, pos := c.pos + MinSz }
    (List.replicate Window 0) bs e hread hne
  have hf : findBoundary (fuel + 1) c = _ := h
  refine ⟨?_, ?_, ?_⟩
  · intro hdone
    simp only [hdone, Bool.false_eq_true, if_false] at hf
    exact ⟨_, hf, Next_of_search_err (fuel + 1) c _ 0 0 e hs hf⟩
  · intro hdone
    simp only [hdone, if_true] at hf
    exact ⟨_, hf, Next_of_search_ok (fuel + 1) c _ _ _ hs hf⟩
  · intro start d ls ds hd hdone
    have h2 := findLoop_read_error start fuel d ls ds e hd hne
    simp only [hdone, Bool.false_eq_true, if_false] at h2
    exact ⟨_, h2⟩

/-- Witness of C11: the first `Next` on `faultyFile`, whose read stores one
zero byte with an error. -/
theorem C11_read_error_after_scan_witness :
    (fresh faultyFile).single = false ∧
    (fresh faultyFile).rd.ReadAt (fresh faultyFile).buf.length ((fresh faultyFile).pos + MinSz) =
      ([0], some (Error.other 1)) ∧
    Error.other 1 ≠ Error.fpDone ∧
    (((scanBlock (fresh faultyFile).hash 0 (List.replicate Window 0) [0]).done = false →
      ∃ c1, findBoundary (0 + 1) (fresh faultyFile) = some (c1, (0, 0, some (Error.other 1))) ∧
        Next (0 + 1) (fresh faultyFile) = some (c1, (none, some (Error.other 1)))) ∧
    ((scanBlock (fresh faultyFile).hash 0 (List.replicate Window 0) [0]).done = true →
      ∃ c1, findBoundary (0 + 1) (fresh faultyFile) = some (c1, ((fresh faultyFile).pos,
          (fresh faultyFile).pos + MinSz +
            (scanBlock (fresh faultyFile).hash 0 (List.replicate Window 0) [0]).off, none)) ∧
        Next (0 + 1) (fresh faultyFile) = some (c1, (some (View.sectionReader
          (fresh faultyFile).rd (fresh faultyFile).pos
          ((fresh faultyFile).pos + MinSz +
            (scanBlock (fresh faultyFile).hash 0 (List.replicate Window 0) [0]).off)), none))) ∧
    (∀ (start : Nat) (d : Chunker) (ls ds : List Byte),
      d.rd.ReadAt d.buf.length d.pos = (ds, some (Error.other 1)) →
      (scanBlock d.hash d.off ls ds).done = false →
      ∃ d1, findLoop start (0 + 1) d ls = some (d1, (0, 0, some (Error.other 1))))) :=
  ⟨rfl, rfl, by decide,
    C11_read_error_after_scan 0 (fresh faultyFile) [0] (Error.other 1) rfl rfl (by decide)⟩

end Rabin

namespace Rabin

/-! ## The rolling update against the direct fingerprint -/

theorem poly_nil (n : Nat) : poly n [] = 0 := by
  cases n <;> rfl

theorem poly_succ_last : ∀ (n : Nat) (rev : List Byte),
    poly (n + 1) rev = poly n rev + (rev.getD n 0).val * Prime ^ n := by
  intro n
  induction n with
  | zero =>
    intro rev
    cases rev with
    | nil => simp [poly]
    | cons b rev => simp [poly, poly_nil]
  | succ n ih =>
    intro rev
    cases rev with
    | nil => simp [poly]
    | cons b rev =>
      rw [poly, ih rev, poly]
      simp only [List.getD_cons_succ]
      ring

theorem poly_eq_sum : ∀ (n : Nat) (rev : List Byte),
    poly n rev = ∑ k in Finset.range n, (rev.getD k 0).val * Prime ^ k := by
  intro n
  induction n with
  | zero => intro rev; simp [poly]
  | succ n ih =>
    intro rev
    rw [poly_succ_last, ih rev, Finset.sum_range_succ]

theorem poly_append : ∀ (n : Nat) (xs ys : List Byte), n ≤ xs.length →
    poly n (xs ++ ys) = poly n xs := by
  intro n
  induction n with
  | zero => intro xs ys _; rfl
  | succ n ih =>
    intro xs ys h
    cases xs with
    | nil => simp at h
    | cons b xs =>
      simp only [List.length_cons, Nat.add_le_add_iff_right] at h
      rw [List.cons_append, poly, poly, ih xs ys h]

theorem poly_cons_window (b : Byte) (rev : List Byte) :
    poly Window rev * Prime + b.val =
      poly Window (b :: rev) + (rev.getD 15 0).val * Prime ^ Window := by
  have h1 : poly Window (b :: rev) = b.val + Prime * poly 15 rev := rfl
  have h2 : poly Window rev = poly 15 rev + (rev.getD 15 0).val * Prime ^ 15 :=
    poly_succ_last 15 rev
  rw [h1, h2]
  simp only [Window]
  ring

theorem WindowOf_nil : WindowOf (List.replicate Window 0) [] := by
  refine ⟨List.length_replicate _ _, ?_⟩
  intro k _
  rw [List.getD_eq_getElem?_getD, List.getElem?_replicate]
  split <;> rfl

theorem and_window (off : Nat) : off &&& (Window - 1) = off % 16 :=
  Nat.and_pow_two_sub_one_eq_mod off 4

theorem WindowOf_out (ls rev : List Byte) (h : WindowOf ls rev) :
    ls.getD (rev.length &&& (Window - 1)) 0 = rev.getD 15 0 := by
  have h1 := h.2 15 (by decide)
  rw [and_window]
  simpa [Window] using h1

theorem WindowOf_cons (ls rev : List Byte) (b : Byte) (h : WindowOf ls rev) :
    WindowOf (ls.set (rev.length &&& (Window - 1)) b) (b :: rev) := by
  obtain ⟨hlen, hk⟩ := h
  refine ⟨by rw [List.length_set]; exact hlen, ?_⟩
  intro k hklt
  rw [and_window]
  simp only [Window] at hlen hk hklt ⊢
  cases k with
  | zero =>
    have hidx : (List.length (b :: rev) + (16 - 1) - 0) % 16 = rev.length % 16 := by
      simp only [List.length_cons]; omega
    rw [hidx]
    have hlt : rev.length % 16 < ls.length := by rw [hlen]; exact Nat.mod_lt _ (by decide)
    simp [List.getD_eq_getElem?_getD, List.getElem?_set, hlt]
  | succ k =>
    have hidx : (List.length (b :: rev) + (16 - 1) - (k + 1)) % 16 =
        (rev.length + (16 - 1) - k) % 16 := by
      simp only [List.length_cons]; omega
    have hne : rev.length % 16 ≠ (rev.length + (16 - 1) - k) % 16 := by omega
    rw [hidx]
    have h2 := hk k (by omega)
    rw [List.getD_cons_succ, ← h2]
    simp [List.getD_eq_getElem?_getD, List.getElem?_set, hne]

theorem update_hashAfter (h0 : Nat) (rev : List Byte) (b : Byte) :
    update (hashAfter h0 rev) b (rev.getD 15 0) = hashAfter h0 (b :: rev) := by
  have hid := poly_cons_window b rev
  have hq : Prime ^ Window = 115368773083406531811195955330938200073304864163668460305155754678164266776321 := by
    decide
  have hpow : h0 * Prime ^ (b :: rev).length = h0 * Prime ^ rev.length * Prime := by
    rw [List.length_cons, pow_succ, Nat.mul_assoc]
  have hb : b.val < 256 := b.isLt
  have ho : (rev.getD 15 0).val < 256 := (rev.getD 15 0).isLt
  have hu := update_int (hashAfter h0 rev) b (rev.getD 15 0)
  unfold hashAfter at hu ⊢
  rw [hpow]
  rw [hq] at hid
  simp only [Prime, Shift] at hid hu ⊢
  generalize h0 * 65521 ^ rev.length = A at hid hu ⊢
  generalize poly Window rev = X at hid hu ⊢
  generalize poly Window (b :: rev) = Y at hid hu ⊢
  generalize (rev.getD 15 0).val = o at hid hu ho ⊢
  generalize update ((A + X) % 2 ^ 31) b (rev.getD 15 0) = u at hu ⊢
  omega

end Rabin

namespace Rabin

theorem scanBlock_cons_hashAfter (h0 : Nat) (rev ls : List Byte) (b : Byte) (bs : List Byte)
    (hw : WindowOf ls rev) :
    scanBlock (hashAfter h0 rev) rev.length ls (b :: bs) =
      if stop (hashAfter h0 (b :: rev)) (rev.length + 1) then
        ⟨hashAfter h0 (b :: rev), rev.length + 1, ls.set (rev.length &&& (Window - 1)) b, true⟩
      else
        scanBlock (hashAfter h0 (b :: rev)) (rev.length + 1)
          (ls.set (rev.length &&& (Window - 1)) b) bs := by
  rw [scanBlock]
  simp only [WindowOf_out ls rev hw, update_hashAfter]

/-- The state the inner loop leaves: `m` bytes of the block were fed, `hash` is
the direct fingerprint of everything fed so far, and the loop stopped early
only on a stop condition. -/
theorem scan_inv (h0 : Nat) : ∀ (bs rev ls : List Byte), WindowOf ls rev →
    ∃ m, m ≤ bs.length ∧
      (scanBlock (hashAfter h0 rev) rev.length ls bs).off = rev.length + m ∧
      (scanBlock (hashAfter h0 rev) rev.length ls bs).hash =
        hashAfter h0 ((bs.take m).reverse ++ rev) ∧
      WindowOf (scanBlock (hashAfter h0 rev) rev.length ls bs).ls ((bs.take m).reverse ++ rev) ∧
      ((scanBlock (hashAfter h0 rev) rev.length ls bs).done = false → m = bs.length) := by
  intro bs
  induction bs with
  | nil =>
    intro rev ls hw
    exact ⟨0, Nat.le_refl _, rfl, rfl, hw, fun _ => rfl⟩
  | cons b bs ih =>
    intro rev ls hw
    rw [scanBlock_cons_hashAfter h0 rev ls b bs hw]
    cases hs : stop (hashAfter h0 (b :: rev)) (rev.length + 1) with
    | true =>
      simp only [if_true]
      refine ⟨1, by simp, rfl, by simp, ?_, fun h => by simp at h⟩
      simpa using WindowOf_cons ls rev b hw
    | false =>
      simp only [Bool.false_eq_true, if_false]
      obtain ⟨m, h1, h2, h3, h4, h5⟩ := ih (b :: rev) _ (WindowOf_cons ls rev b hw)
      simp only [List.length_cons] at h2 h3 h4 h5
      refine ⟨m + 1, by simp [h1], by rw [h2]; omega, ?_, ?_, fun h => by rw [h5 h]; simp⟩
      · rw [h3]; simp
      · simpa using h4

/-- A run of bytes none of which meets a stop condition is fed whole. -/
theorem scan_run (h0 : Nat) : ∀ (bs rev ls : List Byte), WindowOf ls rev →
    (∀ i, i < bs.length →
      stop (hashAfter h0 ((bs.take (i + 1)).reverse ++ rev)) (rev.length + (i + 1)) = false) →
    ∃ ls1, scanBlock (hashAfter h0 rev) rev.length ls bs =
        ⟨hashAfter h0 (bs.reverse ++ rev), rev.length + bs.length, ls1, false⟩ ∧
      WindowOf ls1 (bs.reverse ++ rev) := by
  intro bs
  induction bs with
  | nil =>
    intro rev ls hw _
    exact ⟨ls, rfl, hw⟩
  | cons b bs ih =>
    intro rev ls hw hno
    rw [scanBlock_cons_hashAfter h0 rev ls b bs hw]
    have h0s : stop (hashAfter h0 (b :: rev)) (rev.length + 1) = false := by
      simpa using hno 0 (by simp)
    simp only [h0s, Bool.false_eq_true, if_false]
    obtain ⟨ls1, h1, h2⟩ := ih (b :: rev) _ (WindowOf_cons ls rev b hw) (by
      intro i hi
      have := hno (i + 1) (by simpa using hi)
      simpa [Nat.add_assoc, Nat.add_comm 1] using this)
    refine ⟨ls1, ?_, by simpa using h2⟩
    simp only [List.length_cons] at h1
    rw [h1]
    simp [Nat.add_assoc, Nat.add_comm 1]

end Rabin

namespace Rabin

theorem scanBlock_append (xs ys : List Byte) : ∀ (hash off : Nat) (ls : List Byte),
    scanBlock hash off ls (xs ++ ys) =
      if (scanBlock hash off ls xs).done then scanBlock hash off ls xs
      else scanBlock (scanBlock hash off ls xs).hash (scanBlock hash off ls xs).off
        (scanBlock hash off ls xs).ls ys := by
  induction xs with
  | nil => intro hash off ls; simp [scanBlock]
  | cons b bs ih =>
    intro hash off ls
    cases hs : stop (update hash b (ls.getD (off &&& (Window - 1)) 0)) (off + 1)
    · rw [List.cons_append, scanBlock_cons_go _ hs, scanBlock_cons_go _ hs]
      exact ih _ _ _
    · rw [List.cons_append, scanBlock_cons_stop _ hs, scanBlock_cons_stop _ hs]
      simp

end Rabin

namespace Rabin

theorem sum_window_min (fed : List Byte) :
    ∑ k in Finset.range (min fed.length Window), (fed.reverse.getD k 0).val * Prime ^ k =
      ∑ k in Finset.range Window, (fed.reverse.getD k 0).val * Prime ^ k := by
  apply Finset.sum_subset
  · intro k hk
    simp only [Finset.mem_range] at hk ⊢
    exact Nat.lt_of_lt_of_le hk (Nat.min_le_right _ _)
  · intro k hk hnk
    simp only [Finset.mem_range, Nat.lt_min, not_and] at hk hnk
    have hge : fed.reverse.length ≤ k := by
      rw [List.length_reverse]
      by_contra hlt
      exact hnk (by omega) hk
    rw [List.getD_eq_getElem?_getD, List.getElem?_eq_none hge]
    simp

theorem hashAfter_eq_fingerprint (h0 : Nat) (fed : List Byte) :
    hashAfter h0 fed.reverse = fingerprint h0 fed := by
  unfold hashAfter fingerprint
  rw [List.length_reverse, poly_eq_sum, sum_window_min]

/-- C19: the rolling update agrees with the direct window fingerprint. For a
search entered with hash `h0` (a value below `2^Shift`) and an empty window,
once the inner loop has fed `n` bytes of a run `bs` (all of them, or those up
to the byte that met the stop condition), `hash` equals
`(h0 * Prime^n + sum over k < min n Window of b_(n-k) * Prime^k) mod 2^Shift`;
with `h0 = 0` it is the fingerprint of the last `min n Window` bytes alone.
The bytes of successive read blocks form one run: scanning a block, then the
next with the state left behind, is scanning their concatenation. -/
theorem C19_rolling_is_direct (h0 : Nat) (bs : List Byte) (hh : h0 < 2 ^ Shift) :
    (∃ n, n ≤ bs.length ∧ (scanBlock h0 0 (List.replicate Window 0) bs).off = n ∧
      (scanBlock h0 0 (List.replicate Window 0) bs).hash = fingerprint h0 (bs.take n) ∧
      (h0 = 0 → (scanBlock h0 0 (List.replicate Window 0) bs).hash =
        (∑ k in Finset.range (min n Window),
          ((bs.take n).reverse.getD k 0).val * Prime ^ k) % 2 ^ Shift) ∧
      ((scanBlock h0 0 (List.replicate Window 0) bs).done = false → n = bs.length)) ∧
    (∀ (xs ys ls : List Byte) (hash off : Nat), (scanBlock hash off ls xs).done = false →
      scanBlock hash off ls (xs ++ ys) =
        scanBlock (scanBlock hash off ls xs).hash (scanBlock hash off ls xs).off
          (scanBlock hash off ls xs).ls ys) := by
  constructor
  · have hstart : hashAfter h0 [] = h0 := by
      unfold hashAfter
      simp only [List.length_nil, pow_zero, Nat.mul_one, poly_nil, Nat.add_zero]
      exact Nat.mod_eq_of_lt hh
    obtain ⟨m, h1, h2, h3, -, h5⟩ := scan_inv h0 bs [] _ WindowOf_nil
    rw [hstart] at h2 h3 h5
    simp only [List.length_nil, Nat.zero_add, List.append_nil] at h2 h3 h5
    refine ⟨m, h1, h2, ?_, ?_, h5⟩
    · rw [h3, hashAfter_eq_fingerprint]
    · intro hz
      rw [h3, hashAfter_eq_fingerprint]
      unfold fingerprint
      rw [hz, Nat.zero_mul, Nat.zero_add, List.length_take, Nat.min_eq_left h1]
  · intro xs ys ls hash off hnd
    rw [scanBlock_append, hnd]
    simp

/-- Witness of C19: the run `1, 2, 3` fed to a search entered with hash
zero. -/
theorem C19_rolling_is_direct_witness :
    (0 : Nat) < 2 ^ Shift ∧
    ((∃ n, n ≤ ([1, 2, 3] : List Byte).length ∧
      (scanBlock 0 0 (List.replicate Window 0) [1, 2, 3]).off = n ∧
      (scanBlock 0 0 (List.replicate Window 0) [1, 2, 3]).hash =
        fingerprint 0 (([1, 2, 3] : List Byte).take n) ∧
      ((0 : Nat) = 0 → (scanBlock 0 0 (List.replicate Window 0) [1, 2, 3]).hash =
        (∑ k in Finset.range (min n Window),
          ((([1, 2, 3] : List Byte).take n).reverse.getD k 0).val * Prime ^ k) % 2 ^ Shift) ∧
      ((scanBlock 0 0 (List.replicate Window 0) [1, 2, 3]).done = false →
        n = ([1, 2, 3] : List Byte).length)) ∧
    (∀ (xs ys ls : List Byte) (hash off : Nat), (scanBlock hash off ls xs).done = false →
      scanBlock hash off ls (xs ++ ys) =
        scanBlock (scanBlock hash off ls xs).hash (scanBlock hash off ls xs).off
          (scanBlock hash off ls xs).ls ys)) :=
  ⟨by decide, C19_rolling_is_direct 0 [1, 2, 3] (by decide)⟩

end Rabin

namespace Rabin

/-! ## Boundaries before an edit -/

theorem read_agree (A B : List Byte) (P q len : Nat) (h : A.take P = B.take P)
    (hq : q + len ≤ P) : (A.drop q).take len = (B.drop q).take len := by
  have hA : A.take (q + len) = (A.take P).take (q + len) := by
    rw [List.take_take, Nat.min_eq_left hq]
  have hB : B.take (q + len) = (B.take P).take (q + len) := by
    rw [List.take_take, Nat.min_eq_left hq]
  rw [List.take_drop, List.take_drop, hA, hB, h]

/-- The result of a scan that stops depends only on the bytes it fed. -/
theorem scanBlock_same_fed (xs : List Byte) : ∀ (ys : List Byte) (hash off : Nat) (ls : List Byte),
    (scanBlock hash off ls xs).done = true →
    xs.take ((scanBlock hash off ls xs).off - off) =
      ys.take ((scanBlock hash off ls xs).off - off) →
    scanBlock hash off ls ys = scanBlock hash off ls xs := by
  induction xs with
  | nil => intro ys hash off ls h; simp [scanBlock] at h
  | cons b xs ih =>
    intro ys hash off ls hdone htake
    cases hs : stop (update hash b (ls.getD (off &&& (Window - 1)) 0)) (off + 1)
    · rw [scanBlock_cons_go xs hs] at hdone htake ⊢
      have hge := scanBlock_off_ge xs (update hash b (ls.getD (off &&& (Window - 1)) 0))
        (off + 1) (ls.set (off &&& (Window - 1)) b)
      obtain ⟨m, hm⟩ : ∃ m, (scanBlock (update hash b (ls.getD (off &&& (Window - 1)) 0))
          (off + 1) (ls.set (off &&& (Window - 1)) b) xs).off - off = m + 1 :=
        ⟨(scanBlock (update hash b (ls.getD (off &&& (Window - 1)) 0))
          (off + 1) (ls.set (off &&& (Window - 1)) b) xs).off - off - 1, by omega⟩
      have hm2 : (scanBlock (update hash b (ls.getD (off &&& (Window - 1)) 0))
          (off + 1) (ls.set (off &&& (Window - 1)) b) xs).off - (off + 1) = m := by omega
      rw [hm] at htake
      cases ys with
      | nil => simp at htake
      | cons y ys =>
        simp only [List.take_succ_cons, List.cons.injEq] at htake
        obtain ⟨rfl, htake2⟩ := htake
        rw [scanBlock_cons_go ys hs]
        exact ih ys _ _ _ hdone (by rw [hm2]; exact htake2)
    · rw [scanBlock_cons_stop xs hs] at htake ⊢
      simp only [Nat.add_sub_cancel_left] at htake
      cases ys with
      | nil => simp at htake
      | cons y ys =>
        simp only [List.take_succ_cons, List.take_zero, List.cons.injEq, and_true] at htake
        subst htake
        rw [scanBlock_cons_stop ys hs]

end Rabin

namespace Rabin

/-! ## One iteration of the outer loop -/

theorem findLoop_step_done (start fuel : Nat) (c : Chunker) (ls : List Byte)
    (hdone : (scanBlock c.hash c.off ls (c.rd.ReadAt c.buf.length c.pos).1).done = true) :
    findLoop start (fuel + 1) c ls =
      some ({ c with
          buf := (c.rd.ReadAt c.buf.length c.pos).1 ++
            c.buf.drop (c.rd.ReadAt c.buf.length c.pos).1.length,
          hash := (scanBlock c.hash c.off ls (c.rd.ReadAt c.buf.length c.pos).1).hash,
          off := (scanBlock c.hash c.off ls (c.rd.ReadAt c.buf.length c.pos).1).off,
          pos := c.pos + (scanBlock c.hash c.off ls (c.rd.ReadAt c.buf.length c.pos).1).off },
        (start, c.pos + (scanBlock c.hash c.off ls (c.rd.ReadAt c.buf.length c.pos).1).off,
          none)) := by
  rw [findLoop]
  simp only [hdone, if_true]

theorem findLoop_step_go (start fuel : Nat) (c : Chunker) (ls : List Byte)
    (hdone : (scanBlock c.hash c.off ls (c.rd.ReadAt c.buf.length c.pos).1).done = false)
    (herr : (c.rd.ReadAt c.buf.length c.pos).2 = none) :
    findLoop start (fuel + 1) c ls =
      findLoop start fuel { c with
          buf := (c.rd.ReadAt c.buf.length c.pos).1 ++
            c.buf.drop (c.rd.ReadAt c.buf.length c.pos).1.length,
          hash := (scanBlock c.hash c.off ls (c.rd.ReadAt c.buf.length c.pos).1).hash,
          off := (scanBlock c.hash c.off ls (c.rd.ReadAt c.buf.length c.pos).1).off,
          pos := c.pos + (scanBlock c.hash c.off ls (c.rd.ReadAt c.buf.length c.pos).1).off }
        (scanBlock c.hash c.off ls (c.rd.ReadAt c.buf.length c.pos).1).ls := by
  rw [findLoop]
  simp only [hdone, Bool.false_eq_true, if_false, herr]

theorem findLoop_step_eof (start fuel : Nat) (c : Chunker) (ls : List Byte)
    (hdone : (scanBlock c.hash c.off ls (c.rd.ReadAt c.buf.length c.pos).1).done = false)
    (herr : (c.rd.ReadAt c.buf.length c.pos).2 = some Error.EOF) :
    findLoop start (fuel + 1) c ls =
      some ({ c with
          buf := (c.rd.ReadAt c.buf.length c.pos).1 ++
            c.buf.drop (c.rd.ReadAt c.buf.length c.pos).1.length,
          hash := (scanBlock c.hash c.off ls (c.rd.ReadAt c.buf.length c.pos).1).hash,
          off := (scanBlock c.hash c.off ls (c.rd.ReadAt c.buf.length c.pos).1).off,
          pos := c.pos + (scanBlock c.hash c.off ls (c.rd.ReadAt c.buf.length c.pos).1).off },
        (0, 0, some Error.EOF)) := by
  rw [findLoop]
  simp only [hdone, Bool.false_eq_true, if_false, herr]

theorem scanBlock_off_le_length (bs : List Byte) : ∀ (hash off : Nat) (ls : List Byte),
    (scanBlock hash off ls bs).off ≤ off + bs.length := by
  induction bs with
  | nil => intro hash off ls; simp [scanBlock]
  | cons b bs ih =>
    intro hash off ls
    cases hs : stop (update hash b (ls.getD (off &&& (Window - 1)) 0)) (off + 1)
    · rw [scanBlock_cons_go bs hs, List.length_cons]
      have := ih (update hash b (ls.getD (off &&& (Window - 1)) 0)) (off + 1)
        (ls.set (off &&& (Window - 1)) b)
      omega
    · rw [scanBlock_cons_stop bs hs, List.length_cons]
      simp only
      omega

end Rabin

namespace Rabin

/-- A search on `A` that succeeds with its end inside the first `P` bytes runs
the same way on any `B` that agrees with `A` on those bytes. -/
theorem findLoop_local (A B : List Byte) (P : Nat) (hAB : A.take P = B.take P) {start : Nat} :
    ∀ (fuel : Nat) (c d : Chunker) (ls : List Byte) (c1 : Chunker) (s e : Nat),
    c.rd = File.ofBytes A → d.rd = File.ofBytes B → SameButFile c d →
    findLoop start fuel c ls = some (c1, (s, e, none)) → e ≤ P →
    ∃ d1, findLoop start fuel d ls = some (d1, (s, e, none)) ∧ d1.rd = File.ofBytes B ∧
      c1.rd = File.ofBytes A ∧ SameButFile c1 d1 := by
  intro fuel
  induction fuel with
  | zero => intro c d ls c1 s e _ _ _ h; simp [findLoop] at h
  | succ n ih =>
    intro c d ls c1 s e hcA hdB hsame h he
    obtain ⟨ch, cp, co, cb, csg, crd⟩ := c
    obtain ⟨dh, dp, d_o, db, dsg, drd⟩ := d
    simp only [SameButFile] at hsame
    obtain ⟨rfl, rfl, rfl, hb, rfl⟩ := hsame
    simp only at hcA hdB
    subst hcA hdB
    have hlenA := buf_length_after_read ((A.drop cp).take cb.length) cb
      (by rw [List.length_take]; omega)
    have hlenB := buf_length_after_read ((B.drop cp).take db.length) db
      (by rw [List.length_take]; omega)
    cases hdone : (scanBlock ch co ls ((A.drop cp).take cb.length)).done with
    | true =>
      rw [findLoop_step_done start n _ ls hdone] at h
      simp only [ofBytes_ReadAt, Option.some.injEq, Prod.mk.injEq, and_true] at h
      obtain ⟨rfl, rfl, rfl⟩ := h
      have hge := scanBlock_off_ge ((A.drop cp).take cb.length) ch co ls
      have htake : ((A.drop cp).take cb.length).take
            ((scanBlock ch co ls ((A.drop cp).take cb.length)).off - co) =
          ((B.drop cp).take db.length).take
            ((scanBlock ch co ls ((A.drop cp).take cb.length)).off - co) := by
        rw [List.take_take, List.take_take, ← hb]
        exact read_agree A B P cp _ hAB (by
          have := Nat.min_le_left ((scanBlock ch co ls ((A.drop cp).take cb.length)).off - co)
            cb.length
          omega)
      have hpre := scanBlock_same_fed _ _ ch co ls hdone htake
      have hdoneB : (scanBlock ch co ls ((B.drop cp).take db.length)).done = true := by
        rw [hpre]; exact hdone
      rw [findLoop_step_done start n _ ls hdoneB]
      simp only [ofBytes_ReadAt, hpre]
      refine ⟨_, rfl, rfl, trivial, ?_⟩
      exact ⟨rfl, rfl, rfl, by rw [hlenA, hlenB, hb], rfl⟩
    | false =>
      by_cases hshort : ((A.drop cp).take cb.length).length < cb.length
      · rw [findLoop_step_eof start n _ ls hdone (if_pos hshort)] at h
        simp at h
      · have hfull : ((A.drop cp).take cb.length).length = cb.length := by
          have := List.length_take_le cb.length (A.drop cp)
          omega
        rw [findLoop_step_go start n _ ls hdone (if_neg hshort)] at h
        simp only [ofBytes_ReadAt] at h
        have hoff := scanBlock_not_done _ ch co ls hdone
        obtain ⟨-, hend, hmono⟩ := findLoop_ok _ _ _ _ _ _ h
        simp only at hmono
        have hblock : (A.drop cp).take cb.length = (B.drop cp).take db.length := by
          rw [← hb]
          exact read_agree A B P cp _ hAB (by omega)
        have hdoneB : (scanBlock ch co ls ((B.drop cp).take db.length)).done = false := by
          rw [← hblock]; exact hdone
        have hshortB : ¬ ((B.drop cp).take db.length).length < db.length := by
          rw [← hblock, ← hb]; exact hshort
        rw [findLoop_step_go start n _ ls hdoneB (if_neg hshortB)]
        simp only [ofBytes_ReadAt, ← hblock]
        refine ih _ _ _ _ _ _ rfl rfl ?_ h he
        refine ⟨rfl, rfl, rfl, ?_, rfl⟩
        simp only [List.length_append, List.length_drop]
        omega

end Rabin

namespace Rabin

theorem findBoundary_local (A B : List Byte) (P : Nat) (hAB : A.take P = B.take P)
    (fuel : Nat) (c d c1 : Chunker) (s e : Nat) (hc : c.rd = File.ofBytes A)
    (hd : d.rd = File.ofBytes B) (hsame : SameButFile c d)
    (h : findBoundary fuel c = some (c1, (s, e, none))) (he : e ≤ P) :
    ∃ d1, findBoundary fuel d = some (d1, (s, e, none)) ∧ d1.rd = File.ofBytes B ∧
      c1.rd = File.ofBytes A ∧ SameButFile c1 d1 := by
  obtain ⟨hh, hp, ho, hb, hsg⟩ := hsame
  have hs1 : SameButFile { c with off := 0, pos := c.pos + MinSz }
      { d with off := 0, pos := c.pos + MinSz } := ⟨hh, rfl, rfl, hb, hsg⟩
  unfold findBoundary at h ⊢
  rw [← hp]
  exact findLoop_local A B P hAB fuel { c with off := 0, pos := c.pos + MinSz }
    { d with off := 0, pos := c.pos + MinSz } _ c1 s e hc hd hs1 h he

theorem ranges_of_ok (fuel k : Nat) (c c1 : Chunker) (a b : Nat)
    (h : findBoundary fuel c = some (c1, (a, b, none))) :
    ranges fuel (k + 1) c =
      match ranges fuel k c1 with
      | none => none
      | some rs => some ((a, b) :: rs) := by
  rw [ranges, h]

theorem ranges_one (fuel : Nat) (c c1 : Chunker) (a b : Nat)
    (h : findBoundary fuel c = some (c1, (a, b, none))) :
    ranges fuel 1 c = some [(a, b)] := by
  rw [ranges_of_ok fuel 0 c c1 a b h]
  rfl

theorem ranges_inv (fuel k : Nat) (c : Chunker) (rs : List (Nat × Nat))
    (h : ranges fuel (k + 1) c = some rs) :
    ∃ c1 a b rs1, findBoundary fuel c = some (c1, (a, b, none)) ∧
      ranges fuel k c1 = some rs1 ∧ rs = (a, b) :: rs1 := by
  rw [ranges] at h
  cases hf : findBoundary fuel c with
  | none => rw [hf] at h; simp at h
  | some x =>
    obtain ⟨c1, a, b, err⟩ := x
    rw [hf] at h
    cases err with
    | some e => simp at h
    | none =>
      simp only at h
      cases hr : ranges fuel k c1 with
      | none => rw [hr] at h; simp at h
      | some rs1 =>
        rw [hr] at h
        simp only [Option.some.injEq] at h
        exact ⟨c1, a, b, rs1, rfl, hr, h.symm⟩

theorem ranges_ends_ge (fuel : Nat) : ∀ (k : Nat) (c : Chunker) (rs : List (Nat × Nat)),
    ranges fuel k c = some rs → ∀ r, r ∈ rs → c.pos ≤ r.2 := by
  intro k
  induction k with
  | zero =>
    intro c rs h r hr
    simp only [ranges, Option.some.injEq] at h
    subst h
    simp at hr
  | succ k ih =>
    intro c rs h r hr
    obtain ⟨c1, a, b, rs1, hf, hr1, rfl⟩ := ranges_inv fuel k c rs h
    obtain ⟨-, hb, hpos⟩ := findBoundary_ok fuel c c1 a b hf
    rcases List.mem_cons.1 hr with h1 | h1
    · subst h1
      simp only
      omega
    · have := ih c1 rs1 hr1 r h1
      omega

theorem ranges_local (A B : List Byte) (P : Nat) (hAB : A.take P = B.take P) (fuel : Nat) :
    ∀ (k : Nat) (c d : Chunker) (rs : List (Nat × Nat)),
    c.rd = File.ofBytes A → d.rd = File.ofBytes B → SameButFile c d →
    ranges fuel k c = some rs → (∀ r, rs.getLast? = some r → r.2 ≤ P) →
    ranges fuel k d = some rs := by
  intro k
  induction k with
  | zero =>
    intro c d rs _ _ _ h _
    simpa [ranges] using h
  | succ k ih =>
    intro c d rs hc hd hsame h hP
    obtain ⟨c1, a, b, rs1, hf, hr1, rfl⟩ := ranges_inv fuel k c rs h
    obtain ⟨-, hb, -⟩ := findBoundary_ok fuel c c1 a b hf
    have hbP : b ≤ P := by
      cases rs1 with
      | nil => exact hP (a, b) rfl
      | cons r1 rs2 =>
        obtain ⟨r, hr⟩ : ∃ r, (r1 :: rs2).getLast? = some r := by
          cases hl : (r1 :: rs2).getLast? with
          | none => simp at hl
          | some r => exact ⟨r, rfl⟩
        have hmem : r ∈ r1 :: rs2 := List.mem_of_getLast?_eq_some hr
        have h1 := ranges_ends_ge fuel k c1 _ hr1 r hmem
        have h2 := hP r (by rw [List.getLast?_cons_cons]; exact hr)
        omega
    obtain ⟨d1, hdf, hd1, hc1, hsame1⟩ :=
      findBoundary_local A B P hAB fuel c d c1 a b hc hd hsame hf hbP
    have hP1 : ∀ r, rs1.getLast? = some r → r.2 ≤ P := by
      intro r hr
      cases rs1 with
      | nil => simp at hr
      | cons r1 rs2 => exact hP r (by rw [List.getLast?_cons_cons]; exact hr)
    rw [ranges_of_ok fuel k d d1 a b hdf, ih c1 d1 rs1 hc1 hd1 hsame1 hr1 hP1]

end Rabin

namespace Rabin

/-- C14: chunk boundaries before an edit are unaffected by it. For two
byte-sequence files `A` and `B`, both at least `MinSz` long, that agree on their
first `P` bytes: if the first `k` `findBoundary` calls on the Chunker `New`
returns for `A` succeed with ranges `rs`, the last of which ends at or before
`P`, then the first `k` calls on the Chunker for `B` succeed with the same
ranges. -/
theorem C14_boundaries_before_edit (A B : List Byte) (P fuel k : Nat) (cA cB : Chunker)
    (rs : List (Nat × Nat)) (hA : MinSz ≤ A.length) (hB : MinSz ≤ B.length)
    (hAB : A.take P = B.take P)
    (hNA : New (File.ofBytes A) = .ok cA) (hNB : New (File.ofBytes B) = .ok cB)
    (hr : ranges fuel k cA = some rs) (hP : ∀ r, rs.getLast? = some r → r.2 ≤ P) :
    ranges fuel k cB = some rs := by
  obtain ⟨a1, a2, a3, a4, a5⟩ := New_ofBytes A cA hNA
  obtain ⟨b1, b2, b3, b4, b5⟩ := New_ofBytes B cB hNB
  obtain ⟨a6, a7⟩ := a5 hA
  obtain ⟨b6, b7⟩ := b5 hB
  have hsame : SameButFile cA cB :=
    ⟨by rw [a2, b2], by rw [a3, b3], by rw [a4, b4], by rw [a7, b7], by rw [a6, b6]⟩
  exact ranges_local A B P hAB fuel k cA cB rs a1 b1 hsame hr hP

/-- Witness of C14: the files of `MinSz + 6` and of `3 * MinSz` zero bytes agree
on their first `MinSz + 1` bytes, where the first range of the former ends. -/
theorem C14_boundaries_before_edit_witness :
    MinSz ≤ (List.replicate (MinSz + 6) (0 : Byte)).length ∧
    MinSz ≤ (List.replicate (3 * MinSz) (0 : Byte)).length ∧
    (List.replicate (MinSz + 6) (0 : Byte)).take (MinSz + 1) =
      (List.replicate (3 * MinSz) (0 : Byte)).take (MinSz + 1) ∧
    New (File.ofBytes (List.replicate (MinSz + 6) 0)) = .ok (fresh (zeroFile (MinSz + 6))) ∧
    New (File.ofBytes (List.replicate (3 * MinSz) 0)) = .ok (fresh (zeroFile (3 * MinSz))) ∧
    ranges 1 1 (fresh (zeroFile (MinSz + 6))) = some [(0, 0 + MinSz + 1)] ∧
    (∀ r, ([(0, 0 + MinSz + 1)] : List (Nat × Nat)).getLast? = some r → r.2 ≤ MinSz + 1) ∧
    ranges 1 1 (fresh (zeroFile (3 * MinSz))) = some [(0, 0 + MinSz + 1)] :=
  have hA : MinSz ≤ (List.replicate (MinSz + 6) (0 : Byte)).length := by
    rw [List.length_replicate]; decide
  have hB : MinSz ≤ (List.replicate (3 * MinSz) (0 : Byte)).length := by
    rw [List.length_replicate]; decide
  have hAB : (List.replicate (MinSz + 6) (0 : Byte)).take (MinSz + 1) =
      (List.replicate (3 * MinSz) (0 : Byte)).take (MinSz + 1) := by
    rw [List.take_replicate, List.take_replicate]
    have hmin : min (MinSz + 1) (MinSz + 6) = min (MinSz + 1) (3 * MinSz) := by decide
    rw [hmin]
  have hNA : New (File.ofBytes (List.replicate (MinSz + 6) 0)) =
      .ok (fresh (zeroFile (MinSz + 6))) := New_zeroFile (MinSz + 6) (by decide)
  have hNB : New (File.ofBytes (List.replicate (3 * MinSz) 0)) =
      .ok (fresh (zeroFile (3 * MinSz))) := New_zeroFile (3 * MinSz) (by decide)
  have hr : ranges 1 1 (fresh (zeroFile (MinSz + 6))) = some [(0, 0 + MinSz + 1)] :=
    ranges_one 1 _ _ _ _
      (findBoundary_zeros (MinSz + 6) 0 (fresh (zeroFile (MinSz + 6))) rfl rfl rfl (by decide))
  have hP : ∀ r, ([(0, 0 + MinSz + 1)] : List (Nat × Nat)).getLast? = some r →
      r.2 ≤ MinSz + 1 := by
    intro r h
    have h1 : r = (0, 0 + MinSz + 1) := (Option.some.inj h).symm
    rw [h1]
    decide
  ⟨hA, hB, hAB, hNA, hNB, hr, hP,
    C14_boundaries_before_edit (List.replicate (MinSz + 6) 0) (List.replicate (3 * MinSz) 0)
      (MinSz + 1) 1 1 _ _ _ hA hB hAB hNA hNB hr hP⟩

end Rabin

namespace Rabin

/-! ## A search that spans several read blocks -/

theorem hashAfter_zero (rev : List Byte) : hashAfter 0 rev = poly Window rev % 2 ^ Shift := by
  unfold hashAfter
  rw [Nat.zero_mul, Nat.zero_add]

theorem ones_fill_no_stop :
    ∀ m, m < 16 → stop (poly Window (List.replicate (m + 1) 1) % 2 ^ Shift) (m + 1) = false := by
  decide

theorem ones_full_hash : poly Window (List.replicate 16 1) % 2 ^ Shift = onesHash := by
  decide

theorem zeros_after_ones_no_stop :
    ∀ j, j < 15 →
      stop (poly Window (List.replicate (j + 1) 0 ++ List.replicate 16 1) % 2 ^ Shift)
        (16 + (j + 1)) = false := by
  decide

theorem zeros_after_ones_hash :
    poly Window (List.replicate 16 0 ++ List.replicate 16 1) % 2 ^ Shift = 0 := by
  decide

end Rabin

namespace Rabin

theorem stop_false_of_le (h off1 off2 : Nat) (h1 : stop h off1 = false) (h2 : off2 ≤ MaxSz) :
    stop h off2 = false := by
  cases hs : stop h off2 with
  | false => rfl
  | true =>
    rcases (stop_iff h off2).1 hs with h3 | h3
    · rw [(stop_iff h off1).2 (Or.inl h3)] at h1
      simp at h1
    · omega

theorem replicate_split (n : Nat) (x : Byte) (hn : 16 ≤ n) :
    List.replicate n x = List.replicate 16 x ++ List.replicate (n - 16) x := by
  rw [List.append_replicate_replicate]
  congr 1
  omega

theorem hashAfter_ones (n : Nat) (hn : 16 ≤ n) : hashAfter 0 (List.replicate n 1) = onesHash := by
  rw [hashAfter_zero, replicate_split n 1 hn, poly_append _ _ _ (by simp [Window]),
    ones_full_hash]

theorem ones_no_stop (m : Nat) (h1 : 1 ≤ m) (h2 : m ≤ MaxSz) :
    stop (hashAfter 0 (List.replicate m 1)) m = false := by
  rcases Nat.lt_or_ge 16 m with h | h
  · rw [hashAfter_ones m (by omega)]
    exact stop_false_of_le onesHash 1 m (by decide) h2
  · obtain ⟨k, rfl⟩ : ∃ k, m = k + 1 := ⟨m - 1, by omega⟩
    rw [hashAfter_zero]
    exact ones_fill_no_stop k (by omega)

theorem hashAfter_zeros_ones (j n : Nat) (hn : 16 ≤ n) :
    hashAfter 0 (List.replicate j 0 ++ List.replicate n 1) =
      poly Window (List.replicate j 0 ++ List.replicate 16 1) % 2 ^ Shift := by
  rw [hashAfter_zero, replicate_split n 1 hn, ← List.append_assoc,
    poly_append _ _ _ (by simp [Window])]

/-- A block of ones fed after `n` ones, all below the cutoff, meets no stop. -/
theorem scan_ones_block (n len : Nat) (ls : List Byte) (hmax : n + len ≤ MaxSz)
    (hw : WindowOf ls (List.replicate n 1)) :
    ∃ ls1, scanBlock (hashAfter 0 (List.replicate n 1)) n ls (List.replicate len 1) =
        ⟨hashAfter 0 (List.replicate (n + len) 1), n + len, ls1, false⟩ ∧
      WindowOf ls1 (List.replicate (n + len) 1) := by
  have hrun := scan_run 0 (List.replicate len 1) (List.replicate n 1) ls hw (by
    intro i hi
    rw [List.length_replicate] at hi ⊢
    rw [List.take_replicate, List.reverse_replicate, List.append_replicate_replicate,
      Nat.min_eq_left (by omega)]
    have := ones_no_stop (i + 1 + n) (by omega) (by omega)
    rw [Nat.add_comm n (i + 1)]
    exact this)
  rw [List.reverse_replicate, List.append_replicate_replicate, List.length_replicate,
    List.length_replicate, Nat.add_comm len n] at hrun
  exact hrun

/-- Zeros fed after at least sixteen ones: the sixteenth zero empties the
window, the hash becomes zero and the search stops. -/
theorem scan_zeros_after_ones (n : Nat) (ls rest : List Byte) (hn : 16 ≤ n)
    (hmax : n + 16 ≤ MaxSz) (hw : WindowOf ls (List.replicate n 1)) :
    ∃ ls1, scanBlock (hashAfter 0 (List.replicate n 1)) n ls
        (List.replicate 15 0 ++ (0 :: rest)) = ⟨0, n + 16, ls1, true⟩ := by
  obtain ⟨ls1, hrun, hw1⟩ := scan_run 0 (List.replicate 15 0) (List.replicate n 1) ls hw (by
    intro i hi
    rw [List.length_replicate] at hi ⊢
    rw [List.take_replicate, List.reverse_replicate, Nat.min_eq_left (by omega),
      hashAfter_zeros_ones (i + 1) n hn]
    exact stop_false_of_le _ _ _ (zeros_after_ones_no_stop i hi) (by omega))
  rw [List.length_replicate, List.length_replicate, List.reverse_replicate] at hrun
  rw [List.reverse_replicate] at hw1
  have hlen : (List.replicate 15 (0 : Byte) ++ List.replicate n 1).length = n + 15 := by
    rw [List.length_append, List.length_replicate, List.length_replicate, Nat.add_comm]
  have hcons := scanBlock_cons_hashAfter 0 (List.replicate 15 0 ++ List.replicate n 1) ls1 0
    rest hw1
  rw [hlen] at hcons
  have hz : hashAfter 0 (0 :: (List.replicate 15 0 ++ List.replicate n 1)) = 0 := by
    have h16 : (0 : Byte) :: (List.replicate 15 0 ++ List.replicate n 1) =
        List.replicate 16 0 ++ List.replicate n 1 := rfl
    rw [h16, hashAfter_zeros_ones 16 n hn, zeros_after_ones_hash]
  rw [hz] at hcons
  have hstop : stop 0 (n + 15 + 1) = true := (stop_iff 0 _).2 (Or.inl (by decide))
  rw [hstop, if_pos rfl] at hcons
  rw [scanBlock_append, hrun]
  simp only [Bool.false_eq_true, if_false]
  exact ⟨_, hcons⟩

end Rabin

namespace Rabin

theorem drop_replicate_append (a q : Nat) (x : Byte) (L : List Byte) (h : a ≤ q) :
    (List.replicate a x ++ L).drop q = L.drop (q - a) := by
  obtain ⟨i, rfl⟩ : ∃ i, q = a + i := ⟨q - a, by omega⟩
  have h1 := @List.drop_append Byte (List.replicate a x) L i
  rw [List.length_replicate] at h1
  rw [h1, Nat.add_sub_cancel_left]

theorem onesFile_read_ones (k z q len : Nat) (h1 : MinSz ≤ q) (h2 : q + len ≤ MinSz + k) :
    ((List.replicate MinSz (0 : Byte) ++
      (List.replicate k 1 ++ List.replicate z 0)).drop q).take len = List.replicate len 1 := by
  rw [drop_replicate_append MinSz q 0 _ h1,
    List.drop_append_of_le_length (by rw [List.length_replicate]; omega),
    List.take_append_of_le_length (by rw [List.length_drop, List.length_replicate]; omega),
    List.drop_replicate, List.take_replicate, Nat.min_eq_left (by omega)]

theorem onesFile_read_zeros (k z q len : Nat) (h1 : MinSz + k ≤ q)
    (h2 : q + len ≤ MinSz + k + z) :
    ((List.replicate MinSz (0 : Byte) ++
      (List.replicate k 1 ++ List.replicate z 0)).drop q).take len = List.replicate len 0 := by
  rw [drop_replicate_append MinSz q 0 _ (by omega),
    drop_replicate_append k (q - MinSz) 1 _ (by omega),
    List.drop_replicate, List.take_replicate, Nat.min_eq_left (by omega)]

theorem onesFile_ReadAt_ones (k z q : Nat) (c : Chunker) (hrd : c.rd = onesFile k z)
    (hb : c.buf.length = bufSz) (hq : c.pos = q) (h1 : MinSz ≤ q)
    (h2 : q + bufSz ≤ MinSz + k) :
    c.rd.ReadAt c.buf.length c.pos = (List.replicate bufSz 1, none) := by
  rw [hrd, hb, hq, onesFile, ofBytes_ReadAt, onesFile_read_ones k z q bufSz h1 h2,
    List.length_replicate, if_neg (Nat.lt_irrefl _)]

theorem onesFile_ReadAt_zeros (k z q : Nat) (c : Chunker) (hrd : c.rd = onesFile k z)
    (hb : c.buf.length = bufSz) (hq : c.pos = q) (h1 : MinSz + k ≤ q)
    (h2 : q + bufSz ≤ MinSz + k + z) :
    c.rd.ReadAt c.buf.length c.pos = (List.replicate bufSz 0, none) := by
  rw [hrd, hb, hq, onesFile, ofBytes_ReadAt, onesFile_read_zeros k z q bufSz h1 h2,
    List.length_replicate, if_neg (Nat.lt_irrefl _)]

theorem jump_ge : ∀ (m pos off : Nat),
    pos ≤ (jump m pos off).1 ∧ off ≤ (jump m pos off).2 := by
  intro m
  induction m with
  | zero => intro pos off; exact ⟨Nat.le_refl _, Nat.le_refl _⟩
  | succ m ih =>
    intro pos off
    have := ih (pos + (off + bufSz)) (off + bufSz)
    rw [jump]
    omega

end Rabin

namespace Rabin

/-- While the outer loop reads full blocks of ones and `off` stays at most
`MaxSz`, every iteration goes on, adding `bufSz` to `off` and the whole of
`off` to `pos`. -/
theorem findLoop_ones_blocks (k z start : Nat) : ∀ (m fuel : Nat) (c : Chunker) (ls : List Byte),
    c.rd = onesFile k z → c.buf.length = bufSz →
    c.hash = hashAfter 0 (List.replicate c.off 1) → WindowOf ls (List.replicate c.off 1) →
    MinSz ≤ c.pos → (jump m c.pos c.off).1 ≤ MinSz + k → (jump m c.pos c.off).2 ≤ MaxSz →
    ∃ c1 ls1, findLoop start (m + fuel) c ls = findLoop start fuel c1 ls1 ∧
      c1.rd = onesFile k z ∧ c1.buf.length = bufSz ∧ c1.single = c.single ∧
      c1.pos = (jump m c.pos c.off).1 ∧ c1.off = (jump m c.pos c.off).2 ∧
      c1.hash = hashAfter 0 (List.replicate c1.off 1) ∧
      WindowOf ls1 (List.replicate c1.off 1) := by
  intro m
  induction m with
  | zero =>
    intro fuel c ls hrd hb hh hw _ _ _
    exact ⟨c, ls, by rw [Nat.zero_add], hrd, hb, rfl, rfl, rfl, hh, hw⟩
  | succ m ih =>
    intro fuel c ls hrd hb hh hw hpos hj1 hj2
    rw [jump] at hj1 hj2
    obtain ⟨g1, g2⟩ := jump_ge m (c.pos + (c.off + bufSz)) (c.off + bufSz)
    have hread := onesFile_ReadAt_ones k z c.pos c hrd hb rfl hpos (by omega)
    obtain ⟨ls1, hscan, hw1⟩ := scan_ones_block c.off bufSz ls (by omega) hw
    rw [← hh] at hscan
    have hstep := findLoop_step_go start (m + fuel) c ls
      (by rw [hread, hscan]) (by rw [hread])
    rw [hread] at hstep
    simp only [hscan] at hstep
    rw [show m + 1 + fuel = m + fuel + 1 by omega, hstep]
    obtain ⟨c1, ls2, h1, h2, h3, h4, h5, h6, h7, h8⟩ := ih fuel
      { c with
        buf := List.replicate bufSz 1 ++ c.buf.drop (List.replicate bufSz (1 : Byte)).length,
        hash := hashAfter 0 (List.replicate (c.off + bufSz) 1),
        off := c.off + bufSz, pos := c.pos + (c.off + bufSz) } ls1 hrd
      (by
        simp only [List.length_append, List.length_replicate, List.length_drop]
        omega)
      rfl hw1 (by simp only; omega) hj1 hj2
    exact ⟨c1, ls2, h1, h2, h3, h4, by rw [h5, jump], by rw [h6, jump], h7, h8⟩

end Rabin

namespace Rabin

theorem replicate_split_tail (r : Nat) (x : Byte) :
    List.replicate (15 + (r + 1)) x = List.replicate 15 x ++ (x :: List.replicate r x) := by
  rw [← List.append_replicate_replicate]
  rfl

theorem New_onesFile (k z : Nat) : New (onesFile k z) = .ok (fresh (onesFile k z)) := by
  have h1 : ¬ (MinSz + (k + z) < MinSz) := by omega
  simp [New, onesFile, File.ofBytes, fresh, h1]

/-- The first search on `onesFile k z` when its first `m` reads are full blocks
of ones and the next read, at the first byte after the ones, is a full block
of zeros: it consumes `m * bufSz + 16` bytes, but `pos` has moved by
`bufSz + 2 * bufSz + ... + m * bufSz` before the last block and by all of
`off` after it. -/
theorem findBoundary_ones_then_zeros (k z m fuel : Nat) (hm : 1 ≤ m)
    (hq : (jump m MinSz 0).1 = MinSz + k) (hz : bufSz ≤ z)
    (hoff : (jump m MinSz 0).2 + 16 ≤ MaxSz) :
    ∃ c2, findBoundary (m + (fuel + 1)) (fresh (onesFile k z)) =
        some (c2, (0, MinSz + k + ((jump m MinSz 0).2 + 16), none)) ∧
      c2.off = (jump m MinSz 0).2 + 16 := by
  have hn : bufSz ≤ (jump m MinSz 0).2 := by
    obtain ⟨j, rfl⟩ : ∃ j, m = j + 1 := ⟨m - 1, by omega⟩
    rw [jump]
    exact Nat.le_trans (by omega) (jump_ge j _ _).2
  obtain ⟨c1, ls1, h1, h2, h3, -, h5, h6, h7, h8⟩ :=
    findLoop_ones_blocks k z 0 m (fuel + 1)
      { fresh (onesFile k z) with off := 0, pos := (fresh (onesFile k z)).pos + MinSz }
      (List.replicate Window 0) rfl (List.length_replicate _ _)
      (show (0 : Nat) = hashAfter 0 (List.replicate 0 1) by decide) WindowOf_nil
      (by simp only [fresh]; omega)
      (by simp only [fresh, Nat.zero_add]; omega)
      (by simp only [fresh, Nat.zero_add]; omega)
  simp only [fresh, Nat.zero_add] at h5 h6
  have hread := onesFile_ReadAt_zeros k z c1.pos c1 h2 h3 rfl (by omega) (by omega)
  have hblock : List.replicate bufSz (0 : Byte) =
      List.replicate 15 0 ++ (0 :: List.replicate 8176 0) := replicate_split_tail 8176 0
  obtain ⟨ls2, hscan⟩ := scan_zeros_after_ones c1.off ls1 (List.replicate 8176 0)
    (by rw [h6]; simp only [bufSz] at hn; omega) (by rw [h6]; exact hoff) h8
  rw [← h7, ← hblock] at hscan
  have hstep := findLoop_step_done 0 fuel c1 ls1 (by rw [hread, hscan])
  rw [hread] at hstep
  simp only [hscan] at hstep
  have hfb : findBoundary (m + (fuel + 1)) (fresh (onesFile k z)) =
      findLoop 0 (fuel + 1) c1 ls1 := h1
  rw [hfb, hstep, h5, h6, hq]
  exact ⟨_, rfl, rfl⟩

end Rabin

namespace Rabin

theorem findLoop_off_le {start : Nat} : ∀ (fuel : Nat) (c : Chunker) (ls : List Byte)
    (c1 : Chunker) (r : Nat × Nat × Option Error),
    c.off ≤ MaxSz → findLoop start fuel c ls = some (c1, r) → c1.off ≤ MaxSz + 1 := by
  intro fuel
  induction fuel with
  | zero => intro c ls c1 r _ h; simp [findLoop] at h
  | succ n ih =>
    intro c ls c1 r ho h
    have hsc := scanBlock_off_le (c.rd.ReadAt c.buf.length c.pos).1 c.hash c.off ls ho
    cases hdone : (scanBlock c.hash c.off ls (c.rd.ReadAt c.buf.length c.pos).1).done with
    | true =>
      rw [findLoop_step_done start n c ls hdone] at h
      simp only [Option.some.injEq, Prod.mk.injEq] at h
      obtain ⟨rfl, -⟩ := h
      exact hsc.1
    | false =>
      cases herr : (c.rd.ReadAt c.buf.length c.pos).2 with
      | none =>
        rw [findLoop_step_go start n c ls hdone herr] at h
        exact ih _ _ _ _ (hsc.2 hdone) h
      | some e =>
        rw [findLoop] at h
        simp only [hdone, Bool.false_eq_true, if_false, herr] at h
        cases e with
        | EOF =>
          simp only [Option.some.injEq, Prod.mk.injEq] at h
          obtain ⟨rfl, -⟩ := h
          exact hsc.1
        | fpDone =>
          simp only [Option.some.injEq, Prod.mk.injEq] at h
          obtain ⟨rfl, -⟩ := h
          exact hsc.1
        | other k =>
          simp only [Option.some.injEq, Prod.mk.injEq] at h
          obtain ⟨rfl, -⟩ := h
          exact hsc.1

theorem findLoop_one_ok (start : Nat) (c : Chunker) (ls : List Byte) (c1 : Chunker) (s e : Nat)
    (h : findLoop start 1 c ls = some (c1, (s, e, none))) : e = c.pos + c1.off := by
  rw [findLoop] at h
  simp only at h
  split at h
  · simp [findLoop] at h
  · simp only [Option.some.injEq, Prod.mk.injEq] at h
    obtain ⟨rfl, -, rfl, -⟩ := h
    rfl
  · simp at h

/-- C7: on the file of `MinSz` zeros, `bufSz` ones and `bufSz` zeros the first
search reads two blocks and feeds `bufSz + 16 = 8208` bytes (it stops at the
sixteenth zero), so the claim gives `end = MinSz + 8208`; the code returns
`end = MinSz + 16400`, because after the second block it adds the whole of
`off`, the first block's `bufSz` included, to `pos` once more. -/
theorem C7_end_overshoots_consumed :
    New (onesFile bufSz bufSz) = .ok (fresh (onesFile bufSz bufSz)) ∧
    (findBoundary 641 (fresh (onesFile bufSz bufSz))).map (fun x => x.2) =
      some (0, MinSz + 16400, none) ∧
    (findBoundary 641 (fresh (onesFile bufSz bufSz))).map (fun x => x.1.off) = some 8208 ∧
    MinSz + 16400 ≠ 0 + MinSz + 8208 := by
  obtain ⟨c2, h1, h2⟩ := findBoundary_ones_then_zeros bufSz bufSz 1 639 (by decide)
    (by decide) (by decide) (by decide)
  have e1 : MinSz + bufSz + ((jump 1 MinSz 0).2 + 16) = MinSz + 16400 := by decide
  have e2 : (jump 1 MinSz 0).2 + 16 = 8208 := by decide
  rw [e1] at h1
  rw [e2] at h2
  have h3 : findBoundary 641 (fresh (onesFile bufSz bufSz)) =
      some (c2, (0, MinSz + 16400, none)) := h1
  refine ⟨New_onesFile _ _, ?_, ?_, by decide⟩
  · rw [h3]; rfl
  · rw [h3, Option.map_some', h2]

/-- C8: on the file of `MinSz` zeros, `630 * bufSz` ones and `bufSz` zeros the
first search reads 36 blocks and scans `35 * bufSz + 16 = 286736` bytes, far
fewer than `MaxSz`, so a range ending right after the last byte scanned would
have `MinSz + 286736` bytes, within the bound. The code returns the range
`[0, MinSz + 5447696)`, longer than `MinSz + MaxSz = MinSz + 5242880`, because
it adds the whole of `off` to `pos` after every block. -/
theorem C8_chunk_longer_than_bound :
    New (onesFile (630 * bufSz) bufSz) = .ok (fresh (onesFile (630 * bufSz) bufSz)) ∧
    (findBoundary 641 (fresh (onesFile (630 * bufSz) bufSz))).map (fun x => x.2) =
      some (0, MinSz + 5447696, none) ∧
    ¬ (MinSz + 5447696 - 0 ≤ MinSz + MaxSz) ∧
    (findBoundary 641 (fresh (onesFile (630 * bufSz) bufSz))).map (fun x => x.1.off) =
      some 286736 ∧
    MinSz + 286736 ≤ MinSz + MaxSz := by
  obtain ⟨c2, h1, h2⟩ := findBoundary_ones_then_zeros (630 * bufSz) bufSz 35 605 (by decide)
    (by decide) (by decide) (by decide)
  have e1 : MinSz + 630 * bufSz + ((jump 35 MinSz 0).2 + 16) = MinSz + 5447696 := by decide
  have e2 : (jump 35 MinSz 0).2 + 16 = 286736 := by decide
  rw [e1] at h1
  rw [e2] at h2
  have h3 : findBoundary 641 (fresh (onesFile (630 * bufSz) bufSz)) =
      some (c2, (0, MinSz + 5447696, none)) := h1
  refine ⟨New_onesFile _ _, ?_, by decide, ?_, by decide⟩
  · rw [h3]; rfl
  · rw [h3, Option.map_some', h2]

/-- In every successful `findBoundary` call at most `MaxSz + 1` bytes are
scanned after the `MinSz` jump, and a call that ends within its first read
block returns a range of length `MinSz + off`: the cumulative `pos += off`
shows only from the second block on. -/
theorem findBoundary_one_block (fuel : Nat) (c c1 : Chunker) (s e : Nat)
    (h : findBoundary fuel c = some (c1, (s, e, none))) :
    c1.off ≤ MaxSz + 1 ∧
      (findBoundary 1 c = some (c1, (s, e, none)) →
        e - s = MinSz + c1.off ∧ e - s ≤ MinSz + MaxSz + 1) := by
  have h1 : c1.off ≤ MaxSz + 1 :=
    findLoop_off_le fuel { c with off := 0, pos := c.pos + MinSz } _ c1 _ (Nat.zero_le _) h
  refine ⟨h1, ?_⟩
  intro h2
  obtain ⟨hs, -, -⟩ := findBoundary_ok 1 c c1 s e h2
  have h3 := findLoop_one_ok c.pos { c with off := 0, pos := c.pos + MinSz } _ c1 s e h2
  simp only at h3
  omega

end Rabin
